import Mathlib

/-!
Shallow embedding of the tahoe-lafs storage share crawler
(`src/allmydata/storage/crawler.py`) together with a model of the
integrity-checking parts of the upload/download pipeline exercised by
`src/allmydata/test/test_encode.py`.

Wall-clock times and durations are modelled as rationals; the persistent
state dictionary is modelled as an insertion-ordered association list, as a
Python dict; the filesystem is a partial map from path names to serialized
state dictionaries.
-/

/-- Values stored in the crawler's persistent state dictionary.  The source
stores `None`, non-negative ints (cycle counters and the version number),
byte strings (prefix and bucket names) and, in the dictionary returned by
`get_state`, floats (modelled as rationals). -/
inductive Val where
  | none_ : Val
  | nat : Nat → Val
  | str : String → Val
  | rat : ℚ → Val
deriving DecidableEq

/-- The crawler state dictionary: insertion-ordered key/value pairs,
mirroring a Python dict. -/
abbrev StateDict : Type := List (String × Val)

/-- Dictionary lookup (`d[k]` read access, `None`-free form). -/
def dlookup : StateDict → String → Option Val
  | [], _ => none
  | (ka, v) :: rest, k => if ka = k then some v else dlookup rest k

/-- Dictionary read access; in every state reachable by the crawler the keys
read by the source are present, so the default is never observed. -/
def dget (d : StateDict) (k : String) : Val :=
  (dlookup d k).getD Val.none_

/-- Dictionary assignment `d[k] = v`: replace in place if the key is
present (Python dicts keep insertion order), append otherwise. -/
def dictSet : StateDict → String → Val → StateDict
  | [], k, v => [(k, v)]
  | (ka, va) :: rest, k, v =>
    if ka = k then (k, v) :: rest else (ka, va) :: dictSet rest k v

/-! ### Filesystem model

Only whole-file operations appear in the source (`open`/`pickle.dump`/`close`
on the temp file, and `fileutil.move_into_place`, which is an atomic rename):
the filesystem maps paths to complete serialized states. -/

/-- A filesystem: path names to serialized state dictionaries. -/
abbrev CrawlFS : Type := String → Option StateDict

/-- The empty filesystem (no statefile present). -/
def emptyFS : CrawlFS := fun _ => none

/-- Primitive filesystem operations performed by `save_state`. -/
inductive FsOp where
  | write (path : String) (content : StateDict)
  | rename (src dst : String)
deriving DecidableEq

/-- Effect of one filesystem operation. -/
def runFsOp (fs : CrawlFS) : FsOp → CrawlFS
  | .write p st => fun q => if q = p then some st else fs q
  | .rename src dst => fun q =>
      if q = dst then fs src else if q = src then none else fs q

/-- Effect of a sequence of filesystem operations. -/
def runFsOps (fs : CrawlFS) (ops : List FsOp) : CrawlFS :=
  ops.foldl runFsOp fs

/-! ### The crawler -/

/-- External environment of a slice: `listdir` is `os.listdir` (`none`
models `EnvironmentError`, which the source turns into an empty bucket
list), and `clock` gives the successive values returned by `time.time()`.
All calls of `time.time()` inside `start_current_prefix` happen at prefix
or bucket boundaries; the counter threaded through the model numbers
them. -/
structure CrawlEnv where
  listdir : String → Option (List String)
  clock : Nat → ℚ

/-- In-memory fields of a `ShareCrawler` instance.  `timer` holds the delay
of the pending `reactor.callLater`, if any. -/
structure Crawler where
  sharedir : String
  statefile : String
  prefixes : List String
  allowed_cpu_percentage : ℚ
  cpu_slice : ℚ
  minimum_cycle_time : ℚ
  state : StateDict
  last_complete_prefix_index : Int
  bucket_cache : Option Nat × List String
  current_sleep_time : Option ℚ
  next_wake_time : Option ℚ
  timer : Option ℚ
  sleeping_between_cycles : Option Bool

/-- The default state installed by `load_state` when the statefile is
absent. -/
def default_state : StateDict :=
  [("version", Val.nat 1),
   ("last-cycle-finished", Val.none_),
   ("current-cycle", Val.nat 0),
   ("last-complete-prefix", Val.none_),
   ("last-complete-bucket", Val.none_)]

/-- Modelled from the spec: `si_b2a` (`allmydata.storage.server`, backed by
`allmydata.util.base32`) is not under `src/`.  Storage indexes are encoded
with the RFC 3548 base32 alphabet in lowercase, `"abcdefghijklmnopqrstuvwxyz234567"`,
without padding. -/
def b32char (i : Nat) : Char :=
  "abcdefghijklmnopqrstuvwxyz234567".toList.getD i 'a'

/-- Modelled from the spec: the base32 encoding of the two-byte string with
bytes `b0`, `b1` (four characters; `si_b2a` of a two-byte input). -/
def si_b2a_2 (b0 b1 : Nat) : String :=
  String.mk [b32char (b0 / 8), b32char ((b0 % 8) * 4 + b1 / 64),
             b32char ((b1 % 64) / 2), b32char ((b1 % 2) * 16)]

/-- The two-character prefix generated for ring position `i`:
`si_b2a(struct.pack(">H", i << (16-10)))[:2]`. -/
def prefixOf (i : Nat) : String :=
  ((si_b2a_2 (((i <<< (16 - 10)) / 256) % 256) ((i <<< (16 - 10)) % 256)).take 2)

/-- The crawler's prefix list, computed in `ShareCrawler.__init__`:
the 1024 two-character prefixes, sorted. -/
def crawlerPrefixes : List String :=
  List.insertionSort (· ≤ ·) ((List.range (2 ^ 10)).map prefixOf)

/-- `ShareCrawler.__init__`.  `self.state` and
`self.last_complete_prefix_index` are not set by the constructor (they are
installed by `load_state` before any use); the model gives them inert
defaults. -/
def ShareCrawler_init (sharedir statefile : String) (allowed : Option ℚ) : Crawler :=
  { sharedir := sharedir
    statefile := statefile
    prefixes := crawlerPrefixes
    allowed_cpu_percentage := allowed.getD (1 / 10)
    cpu_slice := 1
    minimum_cycle_time := 300
    state := []
    last_complete_prefix_index := -1
    bucket_cache := (none, [])
    current_sleep_time := none
    next_wake_time := none
    timer := none
    sleeping_between_cycles := none }

/-- `ShareCrawler.get_state`: copy the state dictionary and add the two
sleep keys.  The value of an `Option ℚ` field as stored in the returned
dictionary. -/
def optVal : Option ℚ → Val
  | none => Val.none_
  | some q => Val.rat q

/-- Returns a copy of the state dictionary extended with
`current-sleep-time` and `next-wake-time`; `self.state` itself is not
touched (the source mutates only the copy). -/
def get_state (c : Crawler) : StateDict :=
  dictSet (dictSet c.state "current-sleep-time" (optVal c.current_sleep_time))
    "next-wake-time" (optVal c.next_wake_time)

/-- `ShareCrawler.load_state`: read the statefile (default state if
absent), set `last_complete_prefix_index` from `last-complete-prefix`.
In every state the source persists, `last-complete-prefix` is `None` or one
of the prefixes, so `List.indexOf` agrees with Python's `list.index`. -/
def load_state (c : Crawler) (fs : CrawlFS) : Crawler :=
  let st := (fs c.statefile).getD default_state
  let lcpi : Int :=
    match dget st "last-complete-prefix" with
    | Val.str s => (c.prefixes.indexOf s : Int)
    | _ => -1
  { c with state := st, last_complete_prefix_index := lcpi }

/-- `ShareCrawler.save_state`: record `last-complete-prefix` from the index
(in reachable states the index is `-1` or in range, so `getD` agrees with
the source's list indexing), then write the serialized state to
`statefile + ".tmp"` and rename the temp file onto `statefile`.  Returns
the updated crawler, the updated filesystem, and the operations
performed. -/
def save_state (c : Crawler) (fs : CrawlFS) : Crawler × CrawlFS × List FsOp :=
  let lcp : Val :=
    if c.last_complete_prefix_index = -1 then Val.none_
    else Val.str (c.prefixes.getD c.last_complete_prefix_index.toNat "")
  let st := dictSet c.state "last-complete-prefix" lcp
  let tmpfile := c.statefile ++ ".tmp"
  let ops : List FsOp := [FsOp.write tmpfile st, FsOp.rename tmpfile c.statefile]
  ({ c with state := st }, runFsOps fs ops, ops)

/-- Exceptions that can escape `start_current_prefix`. -/
inductive Exc where
  | timeSlice : Exc
  | assertFail : Exc
deriving DecidableEq

/-- Observable events of a slice.  `prefixDone i` marks the completion of
the prefix at index `i` (line 210), `finishedCycle` the `finished_cycle`
subclass callback, `processBucket` the `process_bucket` subclass callback,
and `save st` an invocation of `save_state` that persisted `st`. -/
inductive Ev where
  | processBucket (cycle : Nat) (pfx bucket : String)
  | prefixDone (i : Nat)
  | finishedCycle (cycle : Nat)
  | save (st : StateDict)
deriving DecidableEq

/-- Result of the bucket and prefix loops: final crawler, filesystem, clock
counter, event trace, and whether `TimeSliceExceeded` was raised. -/
structure Res where
  c : Crawler
  fs : CrawlFS
  n : Nat
  tr : List Ev
  exceeded : Bool

/-- Result of `start_current_prefix` and `start_slice`. -/
structure SRes where
  c : Crawler
  fs : CrawlFS
  n : Nat
  tr : List Ev
  exc : Option Exc

/-- The Python 2 comparison `bucket <= self.state["last-complete-bucket"]`:
byte strings compare lexicographically; `None` (and any non-string value)
sorts below every string, so the comparison is `False` then. -/
def bucketLE (b : String) (v : Val) : Bool :=
  match v with
  | Val.str s => decide (b ≤ s)
  | _ => false

/-- The loop of `ShareCrawler.process_prefixdir` (the base class
`process_bucket` does nothing beyond the callback itself). -/
def bucket_loop (env : CrawlEnv) (cycle : Nat) (pfx prefixdir : String) (t0 : ℚ)
    (c : Crawler) (fs : CrawlFS) (n : Nat) : List String → Res
  | [] => ⟨c, fs, n, [], false⟩
  | b :: rest =>
    if bucketLE b (dget c.state "last-complete-bucket") then
      bucket_loop env cycle pfx prefixdir t0 c fs n rest
    else if env.clock n > t0 + c.cpu_slice then
      ⟨c, fs, n + 1, [], true⟩
    else
      let c1 : Crawler := { c with state := dictSet c.state "last-complete-bucket" (Val.str b) }
      let s := save_state c1 fs
      let r := bucket_loop env cycle pfx prefixdir t0 s.1 s.2.1 (n + 1) rest
      ⟨r.c, r.fs, r.n, Ev.processBucket cycle pfx b :: Ev.save s.1.state :: r.tr, r.exceeded⟩

/-- The bucket listing the crawler computes for a prefix directory:
`os.listdir` sorted, or the empty list on `EnvironmentError`. -/
def listBuckets (env : CrawlEnv) (prefixdir : String) : List String :=
  match env.listdir prefixdir with
  | some l => List.insertionSort (· ≤ ·) l
  | none => []

/-- The loop of `ShareCrawler.start_current_prefix` over the remaining
prefix indices. -/
def prefix_loop (env : CrawlEnv) (cycle : Nat) (t0 : ℚ) :
    Crawler → CrawlFS → Nat → List Nat → Res
  | c, fs, n, [] => ⟨c, fs, n, [], false⟩
  | c, fs, n, i :: rest =>
    if env.clock n > t0 + c.cpu_slice then
      ⟨c, fs, n + 1, [], true⟩
    else
      let pfx := c.prefixes.getD i ""
      let prefixdir := c.sharedir ++ "/" ++ pfx
      let cb : Crawler × List String :=
        if c.bucket_cache.1 = some i then (c, c.bucket_cache.2)
        else ({ c with bucket_cache := (some i, listBuckets env prefixdir) },
          listBuckets env prefixdir)
      let rb := bucket_loop env cycle pfx prefixdir t0 cb.1 fs (n + 1) cb.2
      if rb.exceeded then
        ⟨rb.c, rb.fs, rb.n, rb.tr, true⟩
      else
        let c2 := { rb.c with last_complete_prefix_index := (i : Int) }
        let s := save_state c2 rb.fs
        let r := prefix_loop env cycle t0 s.1 s.2.1 rb.n rest
        ⟨r.c, r.fs, r.n, rb.tr ++ (Ev.prefixDone i :: Ev.save s.1.state :: r.tr), r.exceeded⟩

/-- Lines 188-191 of the source: if `current-cycle` is `None`, assert that
`last-cycle-finished` is set and start the next cycle.  `none` models the
assertion failing (in reachable states `last-cycle-finished` is an int
whenever `current-cycle` is `None`). -/
def cycle_setup (st : StateDict) : Option StateDict :=
  match dget st "current-cycle" with
  | Val.none_ =>
    match dget st "last-cycle-finished" with
    | Val.nat m => some (dictSet st "current-cycle" (Val.nat (m + 1)))
    | _ => none
  | _ => some st

/-- The cycle number held in `current-cycle`; after `cycle_setup` the value
is always an int, so the default is never observed. -/
def currentCycleNat (st : StateDict) : Nat :=
  match dget st "current-cycle" with
  | Val.nat k => k
  | _ => 0

/-- `ShareCrawler.start_current_prefix`. -/
def start_current_prefix (env : CrawlEnv) (c : Crawler) (fs : CrawlFS)
    (n : Nat) (t0 : ℚ) : SRes :=
  match cycle_setup c.state with
  | none => ⟨c, fs, n, [], some Exc.assertFail⟩
  | some st =>
    let c1 : Crawler := { c with state := st }
    let cycle := currentCycleNat st
    let start := (c1.last_complete_prefix_index + 1).toNat
    let idxs := List.range' start (c1.prefixes.length - start)
    let r := prefix_loop env cycle t0 c1 fs n idxs
    if r.exceeded then ⟨r.c, r.fs, r.n, r.tr, some Exc.timeSlice⟩
    else
      let c2 : Crawler :=
        { r.c with
          last_complete_prefix_index := -1
          state := dictSet (dictSet (dictSet r.c.state "last-complete-bucket" Val.none_)
            "last-cycle-finished" (Val.nat cycle)) "current-cycle" Val.none_ }
      let s := save_state c2 r.fs
      ⟨s.1, s.2.1, r.n, r.tr ++ [Ev.finishedCycle cycle, Ev.save s.1.state], none⟩

/-- Lines 156-158 of `start_slice`: clear the timer and the two sleep
fields before doing any work. -/
def slice_prep (c : Crawler) : Crawler :=
  { c with timer := none, current_sleep_time := none, next_wake_time := none }

/-- `ShareCrawler.start_slice`: run `start_current_prefix`, catching
`TimeSliceExceeded` only, then compute the sleep time and schedule the next
slice.  The clock reading at `n` is `start_slice = time.time()` and the
reading at `r.n` is `now = time.time()`. -/
def start_slice (env : CrawlEnv) (c : Crawler) (fs : CrawlFS) (n : Nat) : SRes :=
  let c0 := slice_prep c
  let t0 := env.clock n
  let r := start_current_prefix env c0 fs (n + 1) t0
  match r.exc with
  | some Exc.assertFail => ⟨r.c, r.fs, r.n, r.tr, some Exc.assertFail⟩
  | e =>
    let finished : Bool := e = none
    let now := env.clock r.n
    let this_slice := now - t0
    let sleep_time0 := this_slice / c0.allowed_cpu_percentage - this_slice
    let sleep_time1 := max 0 (min sleep_time0 299)
    let sleep_time := if finished then max sleep_time1 c0.minimum_cycle_time else sleep_time1
    ⟨{ r.c with
        sleeping_between_cycles := some finished
        current_sleep_time := some sleep_time
        next_wake_time := some (now + sleep_time)
        timer := some sleep_time },
      r.fs, r.n + 1, r.tr, none⟩

/-- States reachable from the initial default state by any interleaving of
slices, `save_state` calls and `load_state` calls, starting from a freshly
constructed crawler whose statefile is absent. -/
inductive Reach : Crawler × CrawlFS → Prop where
  | init (sd sf : String) (a : Option ℚ) :
      Reach (load_state (ShareCrawler_init sd sf a) emptyFS, emptyFS)
  | slice (env : CrawlEnv) (n : Nat) {s : Crawler × CrawlFS} (h : Reach s) :
      Reach ((start_slice env s.1 s.2 n).c, (start_slice env s.1 s.2 n).fs)
  | save {s : Crawler × CrawlFS} (h : Reach s) :
      Reach ((save_state s.1 s.2).1, (save_state s.1 s.2).2.1)
  | load {s : Crawler × CrawlFS} (h : Reach s) :
      Reach (load_state s.1 s.2, s.2)

/-! ### Hash trees and the download integrity pipeline

The hash tree, encoder and downloader sources (`allmydata/hashtree.py`,
`allmydata/encode.py`, `allmydata/download.py`) are not under `src/`; only
their test `src/allmydata/test/test_encode.py` is.  The definitions below
are modelled from the specification (and, where the test pins a concrete
count, from the test). -/

/-- Modelled from the spec: the number of leaves after padding to the next
power of two. -/
def nextPow2 (n : Nat) : Nat := 2 ^ Nat.clog 2 n

/-- Heap-order sibling of a node: children of `i` sit at `2*i+1` and
`2*i+2`, so odd indices have their sibling one to the right. -/
def siblingIdx (i : Nat) : Nat := if i % 2 = 1 then i + 1 else i - 1

/-- Modelled from the spec: the sibling chain of heap-order node `i`, walking
up to but not including the root. -/
def siblingChain (i : Nat) : List Nat :=
  if _h : i = 0 then [] else siblingIdx i :: siblingChain ((i - 1) / 2)
termination_by i
decreasing_by
  exact Nat.lt_of_le_of_lt (Nat.div_le_self _ _)
    (Nat.sub_lt (Nat.pos_of_ne_zero _h) one_pos)

/-- Heap-order index of leaf `j` in a tree over `numLeaves` leaves (padded
to the next power of two): the leaves occupy the last row. -/
def leafNodeIndex (numLeaves j : Nat) : Nat := (nextPow2 numLeaves - 1) + j

/-- Modelled from the spec: `needed_hashes(tree, leaf_index)`, the sibling
chain from the leaf up to but not including the root. -/
def neededHashes (numLeaves j : Nat) : List Nat :=
  siblingChain (leafNodeIndex numLeaves j)

/-- The node indices whose hashes the encoder actually sends to shareholder
`j` with `put_share_hashes`.  The test (`test_encode.py` lines 213-215 and
238-240) pins the count to 8 for 100 shares, i.e. the chain includes the
leaf's own hash in addition to its siblings (`needed_hashes` with
`include_leaf=True`); the order of the indices is immaterial here. -/
def shareChainIndices (numLeaves j : Nat) : List Nat :=
  leafNodeIndex numLeaves j :: neededHashes numLeaves j

/-- The `(index, hash)` pairs sent to shareholder `j`, for a tree whose
node at heap index `i` holds `nodes i`. -/
def shareChain {α : Type} (nodes : Nat → α) (numLeaves j : Nat) : List (Nat × α) :=
  (shareChainIndices numLeaves j).map (fun i => (i, nodes i))

/-- Modelled from the spec: `tagged_hash` is a collision-resistant 32-byte
hash with domain separation by tag.  Hash values are modelled as the free
terms below, so two hashes are equal exactly when their preimages are —
collisions do not exist in the model. -/
inductive HashV where
  | tagB (tag : String) (data : List Nat) : HashV
  | tagN (tag : String) (l r : HashV) : HashV
  | emptyLeaf : HashV
deriving DecidableEq

/-- Modelled from the spec: pad a leaf-hash list to the next power of two
with the hash of the empty pad sentinel. -/
def padLeaves (l : List HashV) : List HashV :=
  l ++ List.replicate (nextPow2 l.length - l.length) HashV.emptyLeaf

/-- Combine one level of a Merkle tree pairwise. -/
def combineLevel : List HashV → List HashV
  | x :: y :: rest => HashV.tagN "internal" x y :: combineLevel rest
  | l => l

/-- Iterate `combineLevel`. -/
def combineIter : Nat → List HashV → List HashV
  | 0, l => l
  | k + 1, l => combineIter k (combineLevel l)

/-- Modelled from the spec: the Merkle root of a leaf-hash list. -/
def merkleRoot (l : List HashV) : HashV :=
  (combineIter (Nat.clog 2 l.length) (padLeaves l)).headD HashV.emptyLeaf

/-- Modelled from the spec: the cipher is a byte-addressable stream cipher;
the model uses an additive per-byte cipher, which is an exact inverse pair
as the spec requires. -/
def encryptSeg (key : Nat) (s : List Nat) : List Nat :=
  s.map (fun b => (b + key) % 256)

/-- Decryption, exact inverse of `encryptSeg` on bytes. -/
def decryptSeg (key : Nat) (s : List Nat) : List Nat :=
  s.map (fun b => (b + (256 - key % 256)) % 256)

/-- Per-segment plaintext hashes computed by the encoder. -/
def ptHashes (segs : List (List Nat)) : List HashV :=
  segs.map (fun s => HashV.tagB "plaintext" s)

/-- Per-segment crypttext hashes computed by the encoder. -/
def ctHashes (key : Nat) (segs : List (List Nat)) : List HashV :=
  segs.map (fun s => HashV.tagB "crypttext" (encryptSeg key s))

/-- The URI-extension fields that matter to the download integrity checks. -/
structure UriExt where
  plaintext_root_hash : HashV
  crypttext_root_hash : HashV
  num_segments : Nat
deriving DecidableEq

/-- Modelled from the spec: the URI-extension block produced by the encoder
for a file with the given key and plaintext segments. -/
def mkUriExt (key : Nat) (segs : List (List Nat)) : UriExt :=
  { plaintext_root_hash := merkleRoot (ptHashes segs)
    crypttext_root_hash := merkleRoot (ctHashes key segs)
    num_segments := segs.length }

/-- Which integrity check failed during download. -/
inductive Chk where
  | plaintextRoot : Chk
  | crypttextRoot : Chk
  | crypttextTree : Chk
  | plaintextTree : Chk
deriving DecidableEq

/-- A `BadHashError` raised by the downloader: either a hash-tree root
check against the URI-extension failed, or a per-segment leaf check
failed. -/
inductive DlErr where
  | badHashRoot (c : Chk)
  | badHashSeg (c : Chk) (segno : Nat)
deriving DecidableEq

/-- Modelled from the spec (§4.5 steps 5 and 6): validate each reconstructed
crypttext segment against the crypttext hash-tree leaf, decrypt, then
validate the plaintext against the plaintext hash-tree leaf. -/
def checkSegs (key : Nat) (ptH ctH : List HashV) :
    List (List Nat) → Nat → Except DlErr (List (List Nat))
  | [], _ => Except.ok []
  | ct :: rest, sidx =>
    if ctH.getD sidx HashV.emptyLeaf ≠ HashV.tagB "crypttext" ct then
      Except.error (DlErr.badHashSeg Chk.crypttextTree sidx)
    else
      let pt := decryptSeg key ct
      if ptH.getD sidx HashV.emptyLeaf ≠ HashV.tagB "plaintext" pt then
        Except.error (DlErr.badHashSeg Chk.plaintextTree sidx)
      else
        (checkSegs key ptH ctH rest (sidx + 1)).map (fun l => pt :: l)

/-- Modelled from the spec (§4.5 steps 3, 5, 6): the download pipeline after
the URI-extension has been obtained — validate the fetched hash-tree leaf
lists against the URI-extension roots, then validate, decrypt and validate
each segment.  In the jointly-tampered scenario all shares are good, so FEC
reconstruction returns the true crypttext segments (spec §4.2: decoding any
`k` of the `n` blocks reproduces the segment bit-exactly); the `cts`
argument is that reconstruction. -/
def download_after_uriext (u : UriExt) (ptH ctH : List HashV) (key : Nat)
    (cts : List (List Nat)) : Except DlErr (List (List Nat)) :=
  if merkleRoot ptH ≠ u.plaintext_root_hash then
    Except.error (DlErr.badHashRoot Chk.plaintextRoot)
  else if merkleRoot ctH ≠ u.crypttext_root_hash then
    Except.error (DlErr.badHashRoot Chk.crypttextRoot)
  else checkSegs key ptH ctH cts 0

/-- The tampering performed by `test_bad_crypttext_hashes_failure`
(`Roundtrip.recover`, lines 378-392): every shareholder's crypttext hash
tree is replaced by the same self-consistent bogus tree (leaves
`tagged_hash("bogus", "data")`), and the already-obtained URI-extension's
`crypttext_root_hash` is updated to match. -/
def bogusLeaf : HashV := HashV.tagB "bogus" [100, 97, 116, 97]

/-- Apply the joint tampering to a URI-extension: returns the modified
URI-extension and the bogus crypttext leaf list every shareholder now
serves. -/
def tamperCrypttext (u : UriExt) : UriExt × List HashV :=
  let leaves := List.replicate u.num_segments bogusLeaf
  ({ u with crypttext_root_hash := merkleRoot leaves }, leaves)

/-- End-to-end scenario of claim C8: upload `segs` under `key` with all
shareholders good, apply the joint crypttext-tree/URI-extension tampering,
then run the download pipeline on the (correct) reconstructed crypttext. -/
def tamperedDownload (key : Nat) (segs : List (List Nat)) :
    Except DlErr (List (List Nat)) :=
  let u := mkUriExt key segs
  let tu := tamperCrypttext u
  download_after_uriext tu.1 (ptHashes segs) tu.2 key (segs.map (encryptSeg key))


/-! ### Specification-side definitions and concrete instances -/

/-- The sleep time stated by the spec: `clamp(work / allowed − work, 0, 299)`. -/
def specSleep (work allowed : ℚ) : ℚ :=
  max 0 (min (work / allowed - work) 299)

/-- A slice trace consists of bucket, prefix-completion and cycle-completion
events, each immediately followed by the `save_state` it triggers. -/
inductive ChunkTrace : List Ev → Prop where
  | nil : ChunkTrace []
  | bucket (cycle : Nat) (pfx b : String) (st : StateDict) (t : List Ev) :
      ChunkTrace t → ChunkTrace (Ev.processBucket cycle pfx b :: Ev.save st :: t)
  | pfxDone (i : Nat) (st : StateDict) (t : List Ev) :
      ChunkTrace t → ChunkTrace (Ev.prefixDone i :: Ev.save st :: t)
  | cycleDone (k : Nat) (st : StateDict) (t : List Ev) :
      ChunkTrace t → ChunkTrace (Ev.finishedCycle k :: Ev.save st :: t)

/-- The crawler state invariant: whenever `current-cycle` is `None`,
`last-cycle-finished` holds an int, and the two volatile sleep keys are
never present in the persisted dictionary. -/
def invS (st : StateDict) : Prop :=
  (dget st "current-cycle" = Val.none_ → ∃ m, dget st "last-cycle-finished" = Val.nat m)
  ∧ dlookup st "current-sleep-time" = none
  ∧ dlookup st "next-wake-time" = none

/-- Every file on the filesystem satisfies the state invariant. -/
def fsInv (fs : CrawlFS) : Prop :=
  ∀ p st, fs p = some st → invS st

/-- A small concrete crawler instance (one prefix) used for witnesses. -/
def cW : Crawler :=
  { sharedir := "sd"
    statefile := "sf"
    prefixes := ["aa"]
    allowed_cpu_percentage := 1 / 10
    cpu_slice := 1
    minimum_cycle_time := 300
    state := default_state
    last_complete_prefix_index := -1
    bucket_cache := (none, [])
    current_sleep_time := none
    next_wake_time := none
    timer := none
    sleeping_between_cycles := none }

/-- A concrete environment with empty directories and a constant clock 0. -/
def envW0 : CrawlEnv := { listdir := fun _ => none, clock := fun _ => 0 }

/-- A concrete environment with empty directories and a constant clock 1. -/
def envE : CrawlEnv := { listdir := fun _ => none, clock := fun _ => 1 }

/-- The witness crawler with an empty prefix list: a slice on it performs
no clock checks at all and completes the cycle immediately. -/
def cN : Crawler := { cW with prefixes := [] }

/-- A concrete environment with empty directories and a constant clock 2. -/
def envX : CrawlEnv := { listdir := fun _ => none, clock := fun _ => 2 }

/-- A persisted state dictionary as left by an interrupted run: cycle 5 was
current, the prefix `"aa"` was completed, and within the next prefix the
bucket `"b1"` was the last one completed. -/
def stR : StateDict :=
  [("version", Val.nat 1),
   ("last-cycle-finished", Val.none_),
   ("current-cycle", Val.nat 5),
   ("last-complete-prefix", Val.str "aa"),
   ("last-complete-bucket", Val.str "b1")]

/-- The witness crawler for resumption: two prefixes `"aa"` and `"ab"`. -/
def cR : Crawler := { cW with prefixes := ["aa", "ab"] }

/-- The witness filesystem holding `stR` at `cR`'s statefile. -/
def fsR : CrawlFS := fun s => if s = "sf" then some stR else none

/-- The witness environment for resumption: the prefix directory `sd/ab`
holds the buckets `"b0"` and `"b2"`; the clock is constantly 0, so no
time slice is ever exceeded. -/
def envR : CrawlEnv :=
  { listdir := fun d => if d = "sd/ab" then some ["b0", "b2"] else none
    clock := fun _ => 0 }

/-! ### Auxiliary facts -/

theorem dlookup_dictSet_self (d : StateDict) (k : String) (v : Val) :
    dlookup (dictSet d k v) k = some v := by
  induction d with
  | nil => simp [dictSet, dlookup]
  | cons p rest ih =>
    obtain ⟨k1, v1⟩ := p
    by_cases hp : k1 = k <;> simp [dictSet, dlookup, hp, ih]

theorem dlookup_dictSet_ne (d : StateDict) (k : String) (v : Val) (ka : String)
    (h : ka ≠ k) : dlookup (dictSet d k v) ka = dlookup d ka := by
  have hk : k ≠ ka := fun e => h e.symm
  induction d with
  | nil => simp [dictSet, dlookup, hk]
  | cons p rest ih =>
    obtain ⟨k1, v1⟩ := p
    by_cases hp : k1 = k
    · subst hp
      simp [dictSet, dlookup, hk]
    · by_cases hq : k1 = ka <;> simp [dictSet, dlookup, hp, hq, ih, h]

theorem dget_dictSet_self (d : StateDict) (k : String) (v : Val) :
    dget (dictSet d k v) k = v := by
  simp [dget, dlookup_dictSet_self]

theorem dget_dictSet_ne (d : StateDict) (k : String) (v : Val) (ka : String)
    (h : ka ≠ k) : dget (dictSet d k v) ka = dget d ka := by
  simp [dget, dlookup_dictSet_ne _ _ _ _ h]


theorem tmpfile_ne_statefile (s : String) : s ++ ".tmp" ≠ s := by
  intro h
  have h2 := congrArg String.length h
  rw [String.length_append] at h2
  have h3 : (".tmp" : String).length = 4 := rfl
  omega

theorem clog2_100 : Nat.clog 2 100 = 7 := by
  have h1 : Nat.clog 2 100 ≤ 7 := (Nat.le_pow_iff_clog_le one_lt_two).1 (by norm_num)
  have h2 : 6 < Nat.clog 2 100 := (Nat.pow_lt_iff_lt_clog one_lt_two).1 (by norm_num)
  omega

theorem nextPow2_100 : nextPow2 100 = 128 := by
  rw [nextPow2, clog2_100]
  norm_num

theorem siblingChain_length (k : Nat) : ∀ i, 2 ^ k - 1 ≤ i → i < 2 ^ (k + 1) - 1 →
    (siblingChain i).length = k := by
  induction k with
  | zero =>
    intro i h1 h2
    have hi : i = 0 := by omega
    subst hi
    rw [siblingChain]
    simp
  | succ k ih =>
    intro i h1 h2
    have hp : 1 ≤ 2 ^ k := Nat.one_le_two_pow
    have e1 : (2 : Nat) ^ (k + 1) = 2 * 2 ^ k := by rw [pow_succ, Nat.mul_comm]
    have e2 : (2 : Nat) ^ (k + 2) = 4 * 2 ^ k := by
      rw [pow_succ, pow_succ, Nat.mul_comm, Nat.mul_comm (2 ^ k) 2, ← Nat.mul_assoc]
    have hi0 : ¬ i = 0 := by omega
    rw [siblingChain, dif_neg hi0]
    rw [List.length_cons]
    rw [ih ((i - 1) / 2) (by omega) (by omega)]

theorem neededHashes_100_length (j : Nat) (hj : j < 100) :
    (neededHashes 100 j).length = 7 := by
  rw [neededHashes, leafNodeIndex, nextPow2_100]
  exact siblingChain_length 7 (127 + j) (by omega) (by omega)

/-- In the jointly-tampered scenario the two root checks pass by
construction and the very first segment fails the crypttext leaf check. -/
theorem tamperedDownload_cons (key : Nat) (s0 : List Nat) (rest : List (List Nat)) :
    tamperedDownload key (s0 :: rest) =
      Except.error (DlErr.badHashSeg Chk.crypttextTree 0) := by
  rw [tamperedDownload, tamperCrypttext, mkUriExt, download_after_uriext]
  simp only [ne_eq, not_true_eq_false, if_false, ite_not]
  have hlen : (s0 :: rest).length = rest.length + 1 := rfl
  rw [hlen, List.map_cons, checkSegs]
  have hget : (List.replicate (rest.length + 1) bogusLeaf).getD 0 HashV.emptyLeaf
      = bogusLeaf := by
    rw [List.replicate_succ]
    rfl
  rw [hget]
  have hne : bogusLeaf ≠ HashV.tagB "crypttext" (encryptSeg key s0) := by
    simp [bogusLeaf]
  rw [if_pos hne]

theorem clog2_128 : Nat.clog 2 128 = 7 := by
  have h1 : Nat.clog 2 128 ≤ 7 := (Nat.le_pow_iff_clog_le one_lt_two).1 (by norm_num)
  have h2 : 6 < Nat.clog 2 128 := (Nat.pow_lt_iff_lt_clog one_lt_two).1 (by norm_num)
  omega

/-! ### Claim C5 -/

/-- Claim C5: the crawler's prefix list, computed once at construction,
contains exactly 1024 elements — for each `i` in `0..1023` the first two
characters of the base32 encoding of `i` shifted into the top 10 bits of a
16-bit big-endian field (`prefixOf i`) — sorted in ascending order, and
every crawler instance produces the identical list. -/
theorem crawlerPrefixes_spec :
    crawlerPrefixes.length = 1024
    ∧ (∀ i, i < 1024 → prefixOf i ∈ crawlerPrefixes)
    ∧ (∀ s, s ∈ crawlerPrefixes → ∃ i, i < 1024 ∧ s = prefixOf i)
    ∧ List.Sorted (· ≤ ·) crawlerPrefixes
    ∧ (∀ sd sf a, (ShareCrawler_init sd sf a).prefixes = crawlerPrefixes) := by
  have hperm : crawlerPrefixes.Perm ((List.range (2 ^ 10)).map prefixOf) :=
    List.perm_insertionSort _ _
  refine ⟨?_, ?_, ?_, List.sorted_insertionSort _ _, fun sd sf a => by rw [ShareCrawler_init]⟩
  · rw [hperm.length_eq, List.length_map, List.length_range]
    norm_num
  · intro i hi
    exact hperm.mem_iff.2 (List.mem_map_of_mem _ (List.mem_range.2 (by norm_num [hi])))
  · intro s hs
    obtain ⟨i, hi, rfl⟩ := List.mem_map.1 (hperm.mem_iff.1 hs)
    exact ⟨i, by have := List.mem_range.1 hi; norm_num at this ⊢; omega, rfl⟩

/-- Witness for C5 at `i = 0`. -/
theorem crawlerPrefixes_spec_witness : prefixOf 0 ∈ crawlerPrefixes :=
  crawlerPrefixes_spec.2.1 0 (by norm_num)

/-! ### Claim C7 -/

/-- Counterexample to claim C7 as stated: the bare sibling path of leaf 0
(up to but not including the root) has 7 = ⌈log2 128⌉ entries, while the
chain actually sent has 8 entries, so the chain is not the bare sibling
path and its length is not `⌈log2(n_padded)⌉`. -/
theorem shareChain_seven_not_eight :
    (neededHashes 100 0).length = 7
    ∧ Nat.clog 2 (nextPow2 100) = 7
    ∧ (shareChainIndices 100 0).length = 8 := by
  refine ⟨neededHashes_100_length 0 (by norm_num), ?_, ?_⟩
  · rw [nextPow2_100]
    exact clog2_128
  · simp [shareChainIndices, neededHashes_100_length 0 (by norm_num)]

/-- Claim C7 (amended): for `n = 100` total shares (share hash tree padded
to 128 leaves), each successfully closed shareholder receives a share-hash
chain of exactly 8 `(index, hash)` entries — the sibling path for that
share's leaf up to but not including the root, together with the leaf's own
hash — of length `⌈log2(n_padded)⌉ + 1`. -/
theorem shareChain_length_spec : ∀ (α : Type) (nodes : Nat → α) (j : Nat), j < 100 →
    (shareChain nodes 100 j).length = 8
    ∧ (shareChain nodes 100 j).map Prod.fst = leafNodeIndex 100 j :: neededHashes 100 j
    ∧ 8 = Nat.clog 2 (nextPow2 100) + 1 := by
  intro α nodes j hj
  refine ⟨?_, ?_, ?_⟩
  · simp [shareChain, shareChainIndices, neededHashes_100_length j hj]
  · simp [shareChain, shareChainIndices, Function.comp_def]
  · rw [nextPow2_100, clog2_128]

/-- Witness for C7 at shareholder 0 with a concrete node assignment. -/
theorem shareChain_length_spec_witness :
    (shareChain (fun _ => 0) 100 0).length = 8 :=
  (shareChain_length_spec Nat (fun _ => 0) 0 (by norm_num)).1

/-! ### Claim C8 -/

/-- Counterexample to claim C8 as stated: for the upload of two one-byte
segments under key 1, the jointly-tampered download fails at the crypttext
hash check of segment 0, not at the plaintext hash check. -/
theorem tamperedDownload_not_plaintext_check :
    tamperedDownload 1 [[0], [1]] = Except.error (DlErr.badHashSeg Chk.crypttextTree 0)
    ∧ Chk.crypttextTree ≠ Chk.plaintextTree :=
  ⟨tamperedDownload_cons 1 [0] [[1]], by decide⟩

/-- Claim C8 (amended): if every shareholder's crypttext hash tree is
replaced by the same self-consistent bogus tree and the already-validated
URI-extension's `crypttext_root_hash` is updated to match, then download
raises `BadHashError` — detected at the crypttext hash check of the first
segment — rather than returning data. -/
theorem tamperedDownload_badHash : ∀ (key : Nat) (segs : List (List Nat)), segs ≠ [] →
    tamperedDownload key segs = Except.error (DlErr.badHashSeg Chk.crypttextTree 0) := by
  intro key segs hs
  cases segs with
  | nil => exact absurd rfl hs
  | cons s0 rest => exact tamperedDownload_cons key s0 rest

/-- Witness for C8 at key 2 and a single segment. -/
theorem tamperedDownload_badHash_witness :
    tamperedDownload 2 [[5]] = Except.error (DlErr.badHashSeg Chk.crypttextTree 0) :=
  tamperedDownload_badHash 2 [[5]] (by decide)

/-! ### Claim C1 -/

/-- Claim C1: for every slice with start time `t0 = clock n`, end time
`now = clock r.n` and `work = now − t0`, the scheduled sleep equals
`max(0, min(work / allowed_cpu_percentage − work, 299))` when the slice
ended by `TimeSliceExceeded`, and the maximum of that clamped value and
`minimum_cycle_time` when the slice completed the cycle;
`sleeping_between_cycles` is set `true` exactly in the completed-cycle
case, and the next slice is scheduled exactly `sleep` seconds out
(`next_wake_time = now + sleep`, timer delay `sleep`). -/
theorem start_slice_sleep_spec (env : CrawlEnv) (c : Crawler) (fs : CrawlFS) (n : Nat)
    (r : SRes) (hr : start_current_prefix env (slice_prep c) fs (n + 1) (env.clock n) = r)
    (_hpos : 0 < c.allowed_cpu_percentage) :
    (r.exc = some Exc.timeSlice →
      (start_slice env c fs n).c.current_sleep_time
          = some (specSleep (env.clock r.n - env.clock n) c.allowed_cpu_percentage)
        ∧ (start_slice env c fs n).c.sleeping_between_cycles = some false
        ∧ (start_slice env c fs n).c.next_wake_time
          = some (env.clock r.n
              + specSleep (env.clock r.n - env.clock n) c.allowed_cpu_percentage)
        ∧ (start_slice env c fs n).c.timer
          = some (specSleep (env.clock r.n - env.clock n) c.allowed_cpu_percentage))
    ∧ (r.exc = none →
      (start_slice env c fs n).c.current_sleep_time
          = some (max (specSleep (env.clock r.n - env.clock n) c.allowed_cpu_percentage)
              c.minimum_cycle_time)
        ∧ (start_slice env c fs n).c.sleeping_between_cycles = some true
        ∧ (start_slice env c fs n).c.next_wake_time
          = some (env.clock r.n
              + max (specSleep (env.clock r.n - env.clock n) c.allowed_cpu_percentage)
                  c.minimum_cycle_time)
        ∧ (start_slice env c fs n).c.timer
          = some (max (specSleep (env.clock r.n - env.clock n) c.allowed_cpu_percentage)
              c.minimum_cycle_time)) := by
  constructor
  · intro hexc
    simp only [start_slice, hr, hexc, specSleep]
    simp [slice_prep]
  · intro hexc
    simp only [start_slice, hr, hexc, specSleep]
    simp [slice_prep]

/-- Witness for C1: on the one-prefix crawler with empty directories and a
constant clock, the slice completes the whole cycle and sleeps
`minimum_cycle_time = 300` seconds, with `sleeping_between_cycles`
set true. -/
theorem start_slice_sleep_spec_witness :
    (start_slice envW0 cN emptyFS 0).c.current_sleep_time = some 300
    ∧ (start_slice envW0 cN emptyFS 0).c.sleeping_between_cycles = some true := by
  have hrun : ( start_current_prefix envW0 (slice_prep cN) emptyFS 1 (envW0.clock 0)).exc
      = none := by
    simp [ start_current_prefix, cycle_setup, currentCycleNat, prefix_loop, save_state,
      slice_prep, cN, cW, default_state, dget, dlookup, dictSet, List.range']
  have h := (start_slice_sleep_spec envW0 cN emptyFS 0
      ( start_current_prefix envW0 (slice_prep cN) emptyFS 1 (envW0.clock 0)) rfl
      (by norm_num [cN, cW])).2 hrun
  refine ⟨?_, h.2.1⟩
  rw [h.1]
  norm_num [specSleep, envW0, cN, cW]

/-! ### Claim C2 -/

theorem ChunkTrace_append {t1 t2 : List Ev} (h1 : ChunkTrace t1) (h2 : ChunkTrace t2) :
    ChunkTrace (t1 ++ t2) := by
  induction h1 with
  | nil => simpa using h2
  | bucket cycle pfx b st t _ ih => exact ChunkTrace.bucket _ _ _ _ _ ih
  | pfxDone i st t _ ih => exact ChunkTrace.pfxDone _ _ _ ih
  | cycleDone k st t _ ih => exact ChunkTrace.cycleDone _ _ _ ih

theorem bucket_loop_chunks (env : CrawlEnv) (cycle : Nat) (pfx pd : String) (t0 : ℚ) :
    ∀ (bs : List String) (c : Crawler) (fs : CrawlFS) (n : Nat),
      ChunkTrace (bucket_loop env cycle pfx pd t0 c fs n bs).tr := by
  intro bs
  induction bs with
  | nil => intro c fs n; exact ChunkTrace.nil
  | cons b rest ih =>
    intro c fs n
    rw [bucket_loop]
    cases hb : bucketLE b (dget c.state "last-complete-bucket") with
    | true =>
      simp only [if_true]
      exact ih c fs n
    | false =>
      simp only [Bool.false_eq_true, if_false]
      by_cases h2 : env.clock n > t0 + c.cpu_slice
      · simp only [h2, if_true]
        exact ChunkTrace.nil
      · simp only [h2, if_false]
        exact ChunkTrace.bucket _ _ _ _ _ (ih _ _ _)

theorem prefix_loop_chunks (env : CrawlEnv) (cycle : Nat) (t0 : ℚ) :
    ∀ (L : List Nat) (c : Crawler) (fs : CrawlFS) (n : Nat),
      ChunkTrace (prefix_loop env cycle t0 c fs n L).tr := by
  intro L
  induction L with
  | nil => intro c fs n; exact ChunkTrace.nil
  | cons i rest ih =>
    intro c fs n
    rw [prefix_loop]
    simp only
    split
    · exact ChunkTrace.nil
    · split
      all_goals split
      all_goals first
        | exact bucket_loop_chunks env cycle _ _ t0 _ _ _ _
        | exact ChunkTrace_append (bucket_loop_chunks env cycle _ _ t0 _ _ _ _)
            (ChunkTrace.pfxDone _ _ _ (ih _ _ _))

theorem start_current_prefix_chunks (env : CrawlEnv) (c : Crawler) (fs : CrawlFS)
    (n : Nat) (t0 : ℚ) : ChunkTrace ( start_current_prefix env c fs n t0).tr := by
  rw [ start_current_prefix]
  cases cycle_setup c.state with
  | none => exact ChunkTrace.nil
  | some st =>
    simp only
    split
    · exact prefix_loop_chunks env _ t0 _ _ _ _
    · exact ChunkTrace_append (prefix_loop_chunks env _ t0 _ _ _ _)
        (ChunkTrace.cycleDone _ _ _ ChunkTrace.nil)

/-- Claim C2: in every slice, `save_state` is invoked immediately after each
bucket is processed, after each prefix directory is completed, and after
each cycle is completed (the trace is a sequence of such event/save
chunks); and every invocation of `save_state` writes the complete
serialized state to `statefile + ".tmp"` and then renames that temp file
onto `statefile`, so that after the write the statefile still holds its
previous content and after the rename it holds exactly the new complete
state — it never holds a partially written state. -/
theorem save_state_checkpointing_spec :
    (∀ (env : CrawlEnv) (c : Crawler) (fs : CrawlFS) (n : Nat) (t0 : ℚ),
      ChunkTrace ( start_current_prefix env c fs n t0).tr)
    ∧ (∀ (c : Crawler) (fs : CrawlFS),
        (save_state c fs).2.2
          = [FsOp.write (c.statefile ++ ".tmp") (save_state c fs).1.state,
             FsOp.rename (c.statefile ++ ".tmp") c.statefile]
        ∧ runFsOp fs (FsOp.write (c.statefile ++ ".tmp") (save_state c fs).1.state) c.statefile
          = fs c.statefile
        ∧ (save_state c fs).2.1 c.statefile = some ((save_state c fs).1.state)) := by
  refine ⟨start_current_prefix_chunks, fun c fs => ⟨rfl, ?_, ?_⟩⟩
  · rw [runFsOp]
    exact if_neg (fun h => tmpfile_ne_statefile c.statefile h.symm)
  · show runFsOps fs _ c.statefile = _
    rw [runFsOps]
    simp only [List.foldl_cons, List.foldl_nil, runFsOp]
    simp [save_state]

/-! ### Claim C4 -/

theorem cycle_completion_facts (env : CrawlEnv) (c : Crawler) (fs : CrawlFS)
    (n : Nat) (t0 : ℚ) (hexc : ( start_current_prefix env c fs n t0).exc = none) :
    ∃ st1, cycle_setup c.state = some st1
      ∧ dget ( start_current_prefix env c fs n t0).c.state "current-cycle" = Val.none_
      ∧ dget ( start_current_prefix env c fs n t0).c.state "last-cycle-finished"
          = Val.nat (currentCycleNat st1)
      ∧ dget ( start_current_prefix env c fs n t0).c.state "last-complete-bucket" = Val.none_
      ∧ ( start_current_prefix env c fs n t0).c.last_complete_prefix_index = -1
      ∧ Ev.finishedCycle (currentCycleNat st1) ∈ ( start_current_prefix env c fs n t0).tr := by
  rw [ start_current_prefix] at hexc ⊢
  cases hs : cycle_setup c.state with
  | none =>
    rw [hs] at hexc
    exact absurd hexc (by simp)
  | some st1 =>
    rw [hs] at hexc
    simp only at hexc ⊢
    split at hexc
    · exact absurd hexc (by simp)
    · rename_i hex
      refine ⟨st1, rfl, ?_⟩
      rw [if_neg hex]
      simp only [save_state, if_pos rfl]
      constructor
      · rw [dget_dictSet_ne _ _ _ _ (by decide), dget_dictSet_self]
      constructor
      · rw [dget_dictSet_ne _ _ _ _ (by decide), dget_dictSet_ne _ _ _ _ (by decide),
          dget_dictSet_self]
      constructor
      · rw [dget_dictSet_ne _ _ _ _ (by decide), dget_dictSet_ne _ _ _ _ (by decide),
          dget_dictSet_ne _ _ _ _ (by decide), dget_dictSet_self]
      constructor
      · simp
      · simp

/-- Claim C4: the initial default state has `current-cycle = 0`; whenever
`start_current_prefix` begins with `current-cycle = None` it sets
`current-cycle` to `last-cycle-finished + 1`; and whenever the loop over
all prefixes completes, it sets `last-cycle-finished` to the finished cycle
number, sets `current-cycle` to `None`, sets `last-complete-bucket` to
`None`, resets `last_complete_prefix_index` to `-1`, and invokes
`finished_cycle(cycle)`. -/
theorem cycle_bookkeeping_spec :
    dget default_state "current-cycle" = Val.nat 0
    ∧ (∀ (st : StateDict) (m : Nat), dget st "current-cycle" = Val.none_ →
        dget st "last-cycle-finished" = Val.nat m →
        cycle_setup st = some (dictSet st "current-cycle" (Val.nat (m + 1))))
    ∧ (∀ (env : CrawlEnv) (c : Crawler) (fs : CrawlFS) (n : Nat) (t0 : ℚ),
        ( start_current_prefix env c fs n t0).exc = none →
        ∃ st1, cycle_setup c.state = some st1
          ∧ dget ( start_current_prefix env c fs n t0).c.state "current-cycle" = Val.none_
          ∧ dget ( start_current_prefix env c fs n t0).c.state "last-cycle-finished"
              = Val.nat (currentCycleNat st1)
          ∧ dget ( start_current_prefix env c fs n t0).c.state "last-complete-bucket"
              = Val.none_
          ∧ ( start_current_prefix env c fs n t0).c.last_complete_prefix_index = -1
          ∧ Ev.finishedCycle (currentCycleNat st1)
              ∈ ( start_current_prefix env c fs n t0).tr) := by
  refine ⟨by decide, ?_, cycle_completion_facts⟩
  intro st m h1 h2
  simp [cycle_setup, h1, h2]

/-- Witness for C4: the cycle-start rule on a concrete two-key state, and
the cycle-completion facts on a completed run of the empty-prefix-list
crawler. -/
theorem cycle_bookkeeping_spec_witness :
    cycle_setup [("current-cycle", Val.none_), ("last-cycle-finished", Val.nat 3)]
      = some [("current-cycle", Val.nat 4), ("last-cycle-finished", Val.nat 3)]
    ∧ dget ( start_current_prefix envW0 cN emptyFS 0 0).c.state "current-cycle"
        = Val.none_ := by
  constructor
  · have h := cycle_bookkeeping_spec.2.1
      [("current-cycle", Val.none_), ("last-cycle-finished", Val.nat 3)] 3
      (by decide) (by decide)
    rw [h]
    decide
  · have hrun : ( start_current_prefix envW0 cN emptyFS 0 0).exc = none := by
      simp [ start_current_prefix, cycle_setup, currentCycleNat, prefix_loop, save_state,
        cN, cW, default_state, dget, dlookup, dictSet, List.range']
    obtain ⟨st1, _, h1, _⟩ := cycle_bookkeeping_spec.2.2 envW0 cN emptyFS 0 0 hrun
    exact h1

/-! ### Claim C6 -/

theorem bucket_loop_clock (env : CrawlEnv) (cycle : Nat) (pfx pd : String) (t0 : ℚ) :
    ∀ (bs : List String) (c : Crawler) (fs : CrawlFS) (n : Nat),
      n ≤ (bucket_loop env cycle pfx pd t0 c fs n bs).n
      ∧ ((bucket_loop env cycle pfx pd t0 c fs n bs).exceeded = true →
          env.clock ((bucket_loop env cycle pfx pd t0 c fs n bs).n - 1) > t0 + c.cpu_slice
          ∧ n < (bucket_loop env cycle pfx pd t0 c fs n bs).n)
      ∧ ((bucket_loop env cycle pfx pd t0 c fs n bs).exceeded = false →
          ∀ m, n ≤ m → m < (bucket_loop env cycle pfx pd t0 c fs n bs).n →
            ¬ env.clock m > t0 + c.cpu_slice) := by
  intro bs
  induction bs with
  | nil =>
    intro c fs n
    refine ⟨le_refl n, by simp [bucket_loop], ?_⟩
    intro _ m h1 h2
    simp only [bucket_loop] at h2
    omega
  | cons b rest ih =>
    intro c fs n
    simp only [bucket_loop]
    cases hb : bucketLE b (dget c.state "last-complete-bucket") with
    | true =>
      simp only [if_true]
      exact ih c fs n
    | false =>
      simp only [Bool.false_eq_true, if_false]
      by_cases hcl : env.clock n > t0 + c.cpu_slice
      · simp only [if_pos hcl]
        refine ⟨Nat.le_succ n, ?_, by simp⟩
        intro _
        simpa using hcl
      · simp only [if_neg hcl]
        have ih' := ih (save_state { c with
            state := dictSet c.state "last-complete-bucket" (Val.str b) } fs).1
          (save_state { c with
            state := dictSet c.state "last-complete-bucket" (Val.str b) } fs).2.1 (n + 1)
        have hcs : (save_state { c with
            state := dictSet c.state "last-complete-bucket" (Val.str b) } fs).1.cpu_slice
            = c.cpu_slice := rfl
        rw [hcs] at ih'
        refine ⟨le_trans (Nat.le_succ n) ih'.1, ?_, ?_⟩
        · intro hex
          refine ⟨(ih'.2.1 hex).1, lt_of_lt_of_le (Nat.lt_succ_self n) ?_⟩
          exact le_of_lt (ih'.2.1 hex).2
        · intro hok m h1 h2
          rcases Nat.eq_or_lt_of_le h1 with h1e | h1l
          · subst h1e
            exact hcl
          · exact ih'.2.2 hok m h1l h2

theorem bucket_loop_pres (env : CrawlEnv) (cycle : Nat) (pfx pd : String) (t0 : ℚ) :
    ∀ (bs : List String) (c : Crawler) (fs : CrawlFS) (n : Nat),
      (bucket_loop env cycle pfx pd t0 c fs n bs).c.cpu_slice = c.cpu_slice
      ∧ (bucket_loop env cycle pfx pd t0 c fs n bs).c.prefixes = c.prefixes
      ∧ (bucket_loop env cycle pfx pd t0 c fs n bs).c.sharedir = c.sharedir
      ∧ (bucket_loop env cycle pfx pd t0 c fs n bs).c.statefile = c.statefile
      ∧ (bucket_loop env cycle pfx pd t0 c fs n bs).c.current_sleep_time = c.current_sleep_time
      ∧ (bucket_loop env cycle pfx pd t0 c fs n bs).c.next_wake_time = c.next_wake_time
      ∧ (bucket_loop env cycle pfx pd t0 c fs n bs).c.last_complete_prefix_index
          = c.last_complete_prefix_index
      ∧ (bucket_loop env cycle pfx pd t0 c fs n bs).c.bucket_cache = c.bucket_cache := by
  intro bs
  induction bs with
  | nil =>
    intro c fs n
    exact ⟨rfl, rfl, rfl, rfl, rfl, rfl, rfl, rfl⟩
  | cons b rest ih =>
    intro c fs n
    simp only [bucket_loop]
    cases hb : bucketLE b (dget c.state "last-complete-bucket") with
    | true =>
      simp only [if_true]
      exact ih c fs n
    | false =>
      simp only [Bool.false_eq_true, if_false]
      by_cases hcl : env.clock n > t0 + c.cpu_slice
      · simp only [if_pos hcl]
        simp
      · simp only [if_neg hcl]
        exact ih _ _ _

theorem prefix_loop_pres (env : CrawlEnv) (cycle : Nat) (t0 : ℚ) :
    ∀ (L : List Nat) (c : Crawler) (fs : CrawlFS) (n : Nat),
      (prefix_loop env cycle t0 c fs n L).c.cpu_slice = c.cpu_slice
      ∧ (prefix_loop env cycle t0 c fs n L).c.prefixes = c.prefixes
      ∧ (prefix_loop env cycle t0 c fs n L).c.sharedir = c.sharedir
      ∧ (prefix_loop env cycle t0 c fs n L).c.statefile = c.statefile
      ∧ (prefix_loop env cycle t0 c fs n L).c.current_sleep_time = c.current_sleep_time
      ∧ (prefix_loop env cycle t0 c fs n L).c.next_wake_time = c.next_wake_time := by
  intro L
  induction L with
  | nil =>
    intro c fs n
    exact ⟨rfl, rfl, rfl, rfl, rfl, rfl⟩
  | cons i rest ih =>
    intro c fs n
    simp only [prefix_loop]
    by_cases hcl : env.clock n > t0 + c.cpu_slice
    · simp only [if_pos hcl]
      simp
    · simp only [if_neg hcl]
      by_cases hbc : c.bucket_cache.1 = some i
      · simp only [if_pos hbc]
        obtain ⟨h1, h2, h3, h4, h5, h6, _, _⟩ := bucket_loop_pres env cycle
          (c.prefixes.getD i "") (c.sharedir ++ "/" ++ c.prefixes.getD i "") t0
          c.bucket_cache.2 c fs (n + 1)
        split
        · exact ⟨h1, h2, h3, h4, h5, h6⟩
        · exact ⟨(ih _ _ _).1.trans h1, (ih _ _ _).2.1.trans h2, (ih _ _ _).2.2.1.trans h3,
            (ih _ _ _).2.2.2.1.trans h4, (ih _ _ _).2.2.2.2.1.trans h5,
            (ih _ _ _).2.2.2.2.2.trans h6⟩
      · simp only [if_neg hbc]
        obtain ⟨h1, h2, h3, h4, h5, h6, _, _⟩ := bucket_loop_pres env cycle
          (c.prefixes.getD i "") (c.sharedir ++ "/" ++ c.prefixes.getD i "") t0
          (listBuckets env (c.sharedir ++ "/" ++ c.prefixes.getD i ""))
          { c with bucket_cache := (some i,
            listBuckets env (c.sharedir ++ "/" ++ c.prefixes.getD i "")) } fs (n + 1)
        split
        · exact ⟨h1, h2, h3, h4, h5, h6⟩
        · exact ⟨(ih _ _ _).1.trans h1, (ih _ _ _).2.1.trans h2, (ih _ _ _).2.2.1.trans h3,
            (ih _ _ _).2.2.2.1.trans h4, (ih _ _ _).2.2.2.2.1.trans h5,
            (ih _ _ _).2.2.2.2.2.trans h6⟩

theorem prefix_loop_clock (env : CrawlEnv) (cycle : Nat) (t0 : ℚ) :
    ∀ (L : List Nat) (c : Crawler) (fs : CrawlFS) (n : Nat),
      n ≤ (prefix_loop env cycle t0 c fs n L).n
      ∧ ((prefix_loop env cycle t0 c fs n L).exceeded = true →
          env.clock ((prefix_loop env cycle t0 c fs n L).n - 1) > t0 + c.cpu_slice
          ∧ n < (prefix_loop env cycle t0 c fs n L).n)
      ∧ ((prefix_loop env cycle t0 c fs n L).exceeded = false →
          ∀ m, n ≤ m → m < (prefix_loop env cycle t0 c fs n L).n →
            ¬ env.clock m > t0 + c.cpu_slice) := by
  intro L
  induction L with
  | nil =>
    intro c fs n
    refine ⟨le_refl n, by simp [prefix_loop], ?_⟩
    intro _ m h1 h2
    simp only [prefix_loop] at h2
    omega
  | cons i rest ih =>
    intro c fs n
    simp only [prefix_loop]
    by_cases hcl : env.clock n > t0 + c.cpu_slice
    · simp only [if_pos hcl]
      refine ⟨Nat.le_succ n, ?_, by simp⟩
      intro _
      exact ⟨by simpa using hcl, Nat.lt_succ_self n⟩
    · simp only [if_neg hcl]
      set cb := (if c.bucket_cache.1 = some i then (c, c.bucket_cache.2)
        else ({ c with bucket_cache := (some i,
          listBuckets env (c.sharedir ++ "/" ++ c.prefixes.getD i "")) },
          listBuckets env (c.sharedir ++ "/" ++ c.prefixes.getD i ""))) with hcb0
      have hcb : cb.1.cpu_slice = c.cpu_slice := by
        rw [hcb0]
        split <;> rfl
      set rb := bucket_loop env cycle (c.prefixes.getD i "")
        (c.sharedir ++ "/" ++ c.prefixes.getD i "") t0 cb.1 fs (n + 1) cb.2 with hrb
      have hb := bucket_loop_clock env cycle (c.prefixes.getD i "")
        (c.sharedir ++ "/" ++ c.prefixes.getD i "") t0 cb.2 cb.1 fs (n + 1)
      rw [← hrb, hcb] at hb
      have hbp : rb.c.cpu_slice = c.cpu_slice := by
        have := (bucket_loop_pres env cycle (c.prefixes.getD i "")
          (c.sharedir ++ "/" ++ c.prefixes.getD i "") t0 cb.2 cb.1 fs (n + 1)).1
        rw [← hrb] at this
        rw [this, hcb]
      split
      · rename_i hex
        refine ⟨le_trans (Nat.le_succ n) hb.1, ?_, ?_⟩
        · intro _
          exact ⟨(hb.2.1 hex).1, lt_trans (Nat.lt_succ_self n) (hb.2.1 hex).2⟩
        · intro h
          exact absurd h (by simp)
      · rename_i hex
        have hfalse : rb.exceeded = false := by
          simp only [Bool.not_eq_true] at hex
          exact hex
        have ihr := ih (save_state { rb.c with
          last_complete_prefix_index := (i : Int) } rb.fs).1
          (save_state { rb.c with
            last_complete_prefix_index := (i : Int) } rb.fs).2.1 rb.n
        have hcpu : (save_state { rb.c with
            last_complete_prefix_index := (i : Int) } rb.fs).1.cpu_slice = c.cpu_slice := hbp
        rw [hcpu] at ihr
        refine ⟨le_trans (Nat.le_succ n) (le_trans hb.1 ihr.1), ?_, ?_⟩
        · intro hex2
          exact ⟨(ihr.2.1 hex2).1,
            lt_of_lt_of_le (Nat.lt_succ_self n) (le_trans hb.1 (le_of_lt (ihr.2.1 hex2).2))⟩
        · intro hok m h1 h2
          by_cases hm1 : m = n
          · subst hm1
            exact hcl
          · by_cases hm2 : m < rb.n
            · exact hb.2.2 hfalse m (by omega) hm2
            · exact ihr.2.2 hok m (by omega) h2

theorem start_current_prefix_timeslice_iff (env : CrawlEnv) (c : Crawler) (fs : CrawlFS)
    (n : Nat) (t0 : ℚ) :
    ( start_current_prefix env c fs n t0).exc = some Exc.timeSlice ↔
      ∃ m, n ≤ m ∧ m < ( start_current_prefix env c fs n t0).n
        ∧ env.clock m > t0 + c.cpu_slice := by
  rw [ start_current_prefix]
  cases hs : cycle_setup c.state with
  | none =>
    simp only
    constructor
    · intro h
      exact absurd h (by simp)
    · rintro ⟨m, h1, h2, _⟩
      exact absurd (Nat.lt_of_le_of_lt h1 h2) (Nat.lt_irrefl n)
  | some st =>
    simp only
    split
    · rename_i hex
      have hp := (prefix_loop_clock env _ t0 _ _ _ _).2.1 hex
      constructor
      · intro _
        refine ⟨_ - 1, Nat.le_sub_one_of_lt hp.2, ?_, hp.1⟩
        exact Nat.sub_lt (Nat.lt_of_le_of_lt (Nat.zero_le n) hp.2) one_pos
      · intro _
        rfl
    · rename_i hex
      have hfalse := Bool.not_eq_true _ ▸ hex
      constructor
      · intro h
        exact absurd h (by simp)
      · rintro ⟨m, h1, h2, h3⟩
        exact absurd h3 ((prefix_loop_clock env _ t0 _ _ _ _).2.2 hfalse m h1 h2)

theorem start_slice_no_timeslice (env : CrawlEnv) (c : Crawler) (fs : CrawlFS) (n : Nat) :
    (start_slice env c fs n).exc ≠ some Exc.timeSlice := by
  rw [start_slice]
  cases hx : ( start_current_prefix env (slice_prep c) fs (n + 1) (env.clock n)).exc with
  | none => simp
  | some e =>
    cases e with
    | timeSlice => simp
    | assertFail => simp

/-- Claim C6 (amended): during a slice starting at time `t0`,
`TimeSliceExceeded` is raised exactly when some prefix or bucket boundary
check reads a clock value `now` with `now − t0 > cpu_slice` (strictly);
and `start_slice` catches it at the slice boundary, so `TimeSliceExceeded`
never propagates out of `start_slice`. -/
theorem timeslice_spec :
    (∀ (env : CrawlEnv) (c : Crawler) (fs : CrawlFS) (n : Nat) (t0 : ℚ),
      (( start_current_prefix env c fs n t0).exc = some Exc.timeSlice ↔
        ∃ m, n ≤ m ∧ m < ( start_current_prefix env c fs n t0).n
          ∧ env.clock m > t0 + c.cpu_slice))
    ∧ (∀ (env : CrawlEnv) (c : Crawler) (fs : CrawlFS) (n : Nat),
        (start_slice env c fs n).exc ≠ some Exc.timeSlice) :=
  ⟨start_current_prefix_timeslice_iff, start_slice_no_timeslice⟩

/-- A slice whose prefix loop has at least one prefix to visit always
consumes at least one clock reading. -/
theorem prefix_loop_cons_n_lt (env : CrawlEnv) (cycle : Nat) (t0 : ℚ) (c : Crawler)
    (fs : CrawlFS) (n : Nat) (i : Nat) (rest : List Nat) :
    n < (prefix_loop env cycle t0 c fs n (i :: rest)).n := by
  simp only [prefix_loop]
  by_cases hcl : env.clock n > t0 + c.cpu_slice
  · simp only [if_pos hcl]
    exact Nat.lt_succ_self n
  · simp only [if_neg hcl]
    split
    all_goals split
    all_goals first
      | exact Nat.lt_of_lt_of_le (Nat.lt_succ_self n)
          (bucket_loop_clock env cycle _ _ t0 _ _ _ _).1
      | exact Nat.lt_of_lt_of_le (Nat.lt_succ_self n)
          (le_trans (bucket_loop_clock env cycle _ _ t0 _ _ _ _).1
            (prefix_loop_clock env cycle t0 _ _ _ _).1)

theorem start_current_prefix_assertfail_iff (env : CrawlEnv) (c : Crawler) (fs : CrawlFS)
    (n : Nat) (t0 : ℚ) :
    ( start_current_prefix env c fs n t0).exc = some Exc.assertFail
      ↔ cycle_setup c.state = none := by
  rw [ start_current_prefix]
  cases hs : cycle_setup c.state with
  | none => simp
  | some st =>
    simp only
    split
    · simp
    · simp

theorem start_current_prefix_consumes (env : CrawlEnv) (c : Crawler) (fs : CrawlFS)
    (n : Nat) (t0 : ℚ) (st : StateDict) (hs : cycle_setup c.state = some st)
    (hne : (c.last_complete_prefix_index + 1).toNat < c.prefixes.length) :
    n < ( start_current_prefix env c fs n t0).n := by
  rw [ start_current_prefix, hs]
  simp only
  have hsplit : c.prefixes.length - (c.last_complete_prefix_index + 1).toNat
      = (c.prefixes.length - (c.last_complete_prefix_index + 1).toNat - 1) + 1 := by
    omega
  rw [hsplit, List.range'_succ]
  split
  · exact prefix_loop_cons_n_lt env _ t0 _ fs n _ _
  · exact prefix_loop_cons_n_lt env _ t0 _ fs n _ _

/-- Counterexample to claim C6 as stated: on the one-prefix crawler with a
constant clock at 1, `cpu_slice = 1` and a slice starting at `t0 = 0`,
the prefix and bucket boundaries see `now − t0 = 1 ≥ cpu_slice`, yet
`TimeSliceExceeded` is never raised — the slice completes the whole cycle —
because the source raises only on the strict comparison
`now > t0 + cpu_slice` (line 194). -/
theorem timeslice_boundary_not_raised :
    ( start_current_prefix envE cW emptyFS 0 0).exc = none
    ∧ envE.clock 0 - 0 ≥ cW.cpu_slice := by
  refine ⟨?_, by norm_num [envE, cW]⟩
  have hnotTS : ¬ ( start_current_prefix envE cW emptyFS 0 0).exc = some Exc.timeSlice := by
    rw [ start_current_prefix_timeslice_iff]
    rintro ⟨m, _, _, h3⟩
    norm_num [envE, cW] at h3
  have hnotAF : ¬ ( start_current_prefix envE cW emptyFS 0 0).exc = some Exc.assertFail := by
    rw [ start_current_prefix_assertfail_iff]
    intro h
    rw [show cycle_setup cW.state = some default_state from by decide] at h
    exact Option.noConfusion h
  cases hx : ( start_current_prefix envE cW emptyFS 0 0).exc with
  | none => rfl
  | some e =>
    cases e with
    | timeSlice => exact absurd hx hnotTS
    | assertFail => exact absurd hx hnotAF

/-- Witness for C6: with a constant clock at 2 and `cpu_slice = 1`, the
first boundary check exceeds the slice strictly, and the run raises
`TimeSliceExceeded`. -/
theorem timeslice_spec_witness :
    ( start_current_prefix envX cW emptyFS 0 0).exc = some Exc.timeSlice := by
  have hset : cycle_setup cW.state = some default_state := by decide
  have hcons : 0 < ( start_current_prefix envX cW emptyFS 0 0).n :=
    start_current_prefix_consumes envX cW emptyFS 0 0 default_state hset (by decide)
  cases hx : ( start_current_prefix envX cW emptyFS 0 0).exc with
  | some e =>
    cases e with
    | timeSlice => rfl
    | assertFail =>
      have h2 := ( start_current_prefix_assertfail_iff envX cW emptyFS 0 0).1 hx
      rw [hset] at h2
      exact Option.noConfusion h2
  | none =>
    exfalso
    have h3 : ( start_current_prefix envX cW emptyFS 0 0).exc = some Exc.timeSlice :=
      (timeslice_spec.1 envX cW emptyFS 0 0).mpr
        ⟨0, le_refl 0, hcons, by norm_num [envX, cW]⟩
    rw [hx] at h3
    exact Option.noConfusion h3

/-! ### Claims C9 and C10: state invariants -/

theorem invS_dictSet_other (st : StateDict) (k : String) (v : Val)
    (h1 : k ≠ "current-cycle") (h2 : k ≠ "last-cycle-finished")
    (h3 : k ≠ "current-sleep-time") (h4 : k ≠ "next-wake-time")
    (h : invS st) : invS (dictSet st k v) := by
  refine ⟨?_, ?_, ?_⟩
  · intro hcc
    rw [dget_dictSet_ne _ _ _ _ (fun e => h1 e.symm)] at hcc
    obtain ⟨m, hm⟩ := h.1 hcc
    refine ⟨m, ?_⟩
    rw [dget_dictSet_ne _ _ _ _ (fun e => h2 e.symm)]
    exact hm
  · rw [dlookup_dictSet_ne _ _ _ _ (fun e => h3 e.symm)]
    exact h.2.1
  · rw [dlookup_dictSet_ne _ _ _ _ (fun e => h4 e.symm)]
    exact h.2.2

theorem invS_default : invS default_state := by
  refine ⟨fun h => absurd h (by decide), by decide, by decide⟩

theorem invS_epilogue (st : StateDict) (cycle : Nat) (h : invS st) :
    invS (dictSet (dictSet (dictSet st "last-complete-bucket" Val.none_)
      "last-cycle-finished" (Val.nat cycle)) "current-cycle" Val.none_) := by
  refine ⟨?_, ?_, ?_⟩
  · intro _
    refine ⟨cycle, ?_⟩
    rw [dget_dictSet_ne _ _ _ _ (by decide), dget_dictSet_self]
  · rw [dlookup_dictSet_ne _ _ _ _ (by decide), dlookup_dictSet_ne _ _ _ _ (by decide),
      dlookup_dictSet_ne _ _ _ _ (by decide)]
    exact h.2.1
  · rw [dlookup_dictSet_ne _ _ _ _ (by decide), dlookup_dictSet_ne _ _ _ _ (by decide),
      dlookup_dictSet_ne _ _ _ _ (by decide)]
    exact h.2.2

theorem cycle_setup_invS {st st1 : StateDict} (h : invS st)
    (hs : cycle_setup st = some st1) : invS st1 := by
  rw [cycle_setup] at hs
  cases hcc : dget st "current-cycle" with
  | none_ =>
    rw [hcc] at hs
    obtain ⟨m, hm⟩ := h.1 hcc
    rw [hm] at hs
    obtain rfl : dictSet st "current-cycle" (Val.nat (m + 1)) = st1 := Option.some.inj hs
    refine ⟨?_, ?_, ?_⟩
    · intro hc
      rw [dget_dictSet_self] at hc
      exact absurd hc (by simp)
    · rw [dlookup_dictSet_ne _ _ _ _ (by decide)]
      exact h.2.1
    · rw [dlookup_dictSet_ne _ _ _ _ (by decide)]
      exact h.2.2
  | nat k =>
    rw [hcc] at hs
    obtain rfl := Option.some.inj hs
    exact h
  | str s =>
    rw [hcc] at hs
    obtain rfl := Option.some.inj hs
    exact h
  | rat q =>
    rw [hcc] at hs
    obtain rfl := Option.some.inj hs
    exact h

theorem cycle_setup_ne_none {st : StateDict} (h : invS st) : cycle_setup st ≠ none := by
  rw [cycle_setup]
  cases hcc : dget st "current-cycle" with
  | none_ =>
    obtain ⟨m, hm⟩ := h.1 hcc
    rw [hm]
    simp
  | nat k => simp
  | str s => simp
  | rat q => simp

theorem save_state_inv (c : Crawler) (fs : CrawlFS) (hc : invS c.state) (hf : fsInv fs) :
    invS (save_state c fs).1.state ∧ fsInv (save_state c fs).2.1 := by
  have hst : invS (save_state c fs).1.state := by
    apply invS_dictSet_other _ _ _ (by decide) (by decide) (by decide) (by decide) hc
  refine ⟨hst, ?_⟩
  intro p st hp
  simp only [save_state, runFsOps, List.foldl_cons, List.foldl_nil, runFsOp] at hp
  by_cases hps : p = c.statefile
  · rw [if_pos hps] at hp
    simp only [if_true] at hp
    obtain rfl := Option.some.inj hp
    exact hst
  · rw [if_neg hps] at hp
    by_cases hpt : p = c.statefile ++ ".tmp"
    · rw [if_pos hpt] at hp
      exact Option.noConfusion hp
    · rw [if_neg hpt, if_neg hpt] at hp
      exact hf p st hp

theorem bucket_loop_inv (env : CrawlEnv) (cycle : Nat) (pfx pd : String) (t0 : ℚ) :
    ∀ (bs : List String) (c : Crawler) (fs : CrawlFS) (n : Nat), invS c.state → fsInv fs →
      invS (bucket_loop env cycle pfx pd t0 c fs n bs).c.state
      ∧ fsInv (bucket_loop env cycle pfx pd t0 c fs n bs).fs := by
  intro bs
  induction bs with
  | nil =>
    intro c fs n hc hf
    exact ⟨hc, hf⟩
  | cons b rest ih =>
    intro c fs n hc hf
    simp only [bucket_loop]
    cases hb : bucketLE b (dget c.state "last-complete-bucket") with
    | true =>
      simp only [if_true]
      exact ih c fs n hc hf
    | false =>
      simp only [Bool.false_eq_true, if_false]
      by_cases hcl : env.clock n > t0 + c.cpu_slice
      · simp only [if_pos hcl]
        exact ⟨hc, hf⟩
      · simp only [if_neg hcl]
        have hc1 : invS (dictSet c.state "last-complete-bucket" (Val.str b)) :=
          invS_dictSet_other _ _ _ (by decide) (by decide) (by decide) (by decide) hc
        have hsv := save_state_inv { c with
          state := dictSet c.state "last-complete-bucket" (Val.str b) } fs hc1 hf
        exact ih _ _ _ hsv.1 hsv.2

theorem prefix_loop_inv (env : CrawlEnv) (cycle : Nat) (t0 : ℚ) :
    ∀ (L : List Nat) (c : Crawler) (fs : CrawlFS) (n : Nat), invS c.state → fsInv fs →
      invS (prefix_loop env cycle t0 c fs n L).c.state
      ∧ fsInv (prefix_loop env cycle t0 c fs n L).fs := by
  intro L
  induction L with
  | nil =>
    intro c fs n hc hf
    exact ⟨hc, hf⟩
  | cons i rest ih =>
    intro c fs n hc hf
    simp only [prefix_loop]
    by_cases hcl : env.clock n > t0 + c.cpu_slice
    · simp only [if_pos hcl]
      exact ⟨hc, hf⟩
    · simp only [if_neg hcl]
      set cb := (if c.bucket_cache.1 = some i then (c, c.bucket_cache.2)
        else ({ c with bucket_cache := (some i,
          listBuckets env (c.sharedir ++ "/" ++ c.prefixes.getD i "")) },
          listBuckets env (c.sharedir ++ "/" ++ c.prefixes.getD i ""))) with hcb0
      have hcb : invS cb.1.state := by
        rw [hcb0]
        split
        · exact hc
        · exact hc
      have hbl := bucket_loop_inv env cycle (c.prefixes.getD i "")
        (c.sharedir ++ "/" ++ c.prefixes.getD i "") t0 cb.2 cb.1 fs (n + 1) hcb hf
      split
      · exact hbl
      · have hsv := save_state_inv { (bucket_loop env cycle (c.prefixes.getD i "")
            (c.sharedir ++ "/" ++ c.prefixes.getD i "") t0 cb.1 fs (n + 1) cb.2).c with
          last_complete_prefix_index := (i : Int) }
          (bucket_loop env cycle (c.prefixes.getD i "")
            (c.sharedir ++ "/" ++ c.prefixes.getD i "") t0 cb.1 fs (n + 1) cb.2).fs
          hbl.1 hbl.2
        exact ih _ _ _ hsv.1 hsv.2

theorem start_current_prefix_inv (env : CrawlEnv) (c : Crawler) (fs : CrawlFS)
    (n : Nat) (t0 : ℚ) (hc : invS c.state) (hf : fsInv fs) :
    invS ( start_current_prefix env c fs n t0).c.state
    ∧ fsInv ( start_current_prefix env c fs n t0).fs := by
  rw [ start_current_prefix]
  cases hs : cycle_setup c.state with
  | none => exact ⟨hc, hf⟩
  | some st =>
    have hst : invS st := cycle_setup_invS hc hs
    simp only
    have hp := prefix_loop_inv env (currentCycleNat st) t0
      (List.range' ((c.last_complete_prefix_index + 1).toNat)
        (c.prefixes.length - (c.last_complete_prefix_index + 1).toNat))
      { c with state := st } fs n hst hf
    split
    · exact hp
    · exact save_state_inv _ _ (invS_epilogue _ _ hp.1) hp.2

theorem start_slice_inv (env : CrawlEnv) (c : Crawler) (fs : CrawlFS) (n : Nat)
    (hc : invS c.state) (hf : fsInv fs) :
    invS (start_slice env c fs n).c.state ∧ fsInv (start_slice env c fs n).fs := by
  rw [start_slice]
  have hin := start_current_prefix_inv env (slice_prep c) fs (n + 1) (env.clock n) hc hf
  cases hx : ( start_current_prefix env (slice_prep c) fs (n + 1) (env.clock n)).exc with
  | none => exact hin
  | some e =>
    cases e with
    | timeSlice => exact hin
    | assertFail => exact hin

theorem load_state_inv (c : Crawler) (fs : CrawlFS) (hf : fsInv fs) :
    invS (load_state c fs).state := by
  rw [load_state]
  simp only
  cases hx : fs c.statefile with
  | none => exact invS_default
  | some st => exact hf _ _ hx

theorem reach_inv : ∀ s, Reach s → invS s.1.state ∧ fsInv s.2 := by
  intro s h
  induction h with
  | init sd sf a =>
    refine ⟨load_state_inv _ _ ?hf, ?hf⟩
    case hf =>
      intro p st hp
      exact Option.noConfusion hp
  | slice env n h ih => exact start_slice_inv env _ _ n ih.1 ih.2
  | save h ih => exact save_state_inv _ _ ih.1 ih.2
  | load h ih => exact ⟨load_state_inv _ _ ih.2, ih.2⟩

theorem start_current_prefix_pres (env : CrawlEnv) (c : Crawler) (fs : CrawlFS)
    (n : Nat) (t0 : ℚ) :
    ( start_current_prefix env c fs n t0).c.current_sleep_time = c.current_sleep_time
    ∧ ( start_current_prefix env c fs n t0).c.next_wake_time = c.next_wake_time := by
  rw [ start_current_prefix]
  cases hs : cycle_setup c.state with
  | none => exact ⟨rfl, rfl⟩
  | some st =>
    simp only
    have hp := prefix_loop_pres env (currentCycleNat st) t0
      (List.range' ((c.last_complete_prefix_index + 1).toNat)
        (c.prefixes.length - (c.last_complete_prefix_index + 1).toNat))
      { c with state := st } fs n
    split
    · exact ⟨hp.2.2.2.2.1, hp.2.2.2.2.2⟩
    · exact ⟨hp.2.2.2.2.1, hp.2.2.2.2.2⟩

/-- Claim C10: in every crawler state reachable from the initial default
state by any sequence of slices, `save_state` calls and `load_state`
calls, `current-cycle = None` implies that `last-cycle-finished` is an
int; consequently the assertion at the start of `start_current_prefix`
never fails. -/
theorem reachable_assert_never_fails :
    ∀ s, Reach s →
      ((dget s.1.state "current-cycle" = Val.none_ →
        ∃ m, dget s.1.state "last-cycle-finished" = Val.nat m)
      ∧ ∀ (env : CrawlEnv) (n : Nat) (t0 : ℚ),
          ( start_current_prefix env s.1 s.2 n t0).exc ≠ some Exc.assertFail) := by
  intro s h
  have hi := reach_inv s h
  refine ⟨hi.1.1, ?_⟩
  intro env n t0 hexc
  exact cycle_setup_ne_none hi.1
    (( start_current_prefix_assertfail_iff env s.1 s.2 n t0).1 hexc)

/-- Witness for C10 at the initial state: the first slice's cycle-start
assertion does not fail. -/
theorem reachable_assert_never_fails_witness :
    ( start_current_prefix envW0 (load_state (ShareCrawler_init "sd" "sf" none) emptyFS)
      emptyFS 0 0).exc ≠ some Exc.assertFail :=
  (reachable_assert_never_fails
    (load_state (ShareCrawler_init "sd" "sf" none) emptyFS, emptyFS)
    (Reach.init "sd" "sf" none)).2 envW0 0 0

/-- Claim C9: `get_state` returns a copy of the persisted state dictionary
extended with `current-sleep-time` and `next-wake-time` (every other key
reads exactly as in `self.state`), leaves `self.state` itself unchanged —
in every reachable state the two extra keys are absent from the persisted
mapping — and both values are `None` whenever the crawler is actively
working, because `start_slice` resets the two fields to `None` before
doing any work and the slice body never changes them. -/
theorem get_state_spec :
    (∀ (c : Crawler) (k : String), k ≠ "current-sleep-time" → k ≠ "next-wake-time" →
      dlookup (get_state c) k = dlookup c.state k)
    ∧ (∀ c : Crawler,
        dget (get_state c) "current-sleep-time" = optVal c.current_sleep_time
        ∧ dget (get_state c) "next-wake-time" = optVal c.next_wake_time)
    ∧ (∀ s, Reach s → dlookup s.1.state "current-sleep-time" = none
        ∧ dlookup s.1.state "next-wake-time" = none)
    ∧ (∀ c : Crawler, (slice_prep c).current_sleep_time = none
        ∧ (slice_prep c).next_wake_time = none
        ∧ dget (get_state (slice_prep c)) "current-sleep-time" = Val.none_
        ∧ dget (get_state (slice_prep c)) "next-wake-time" = Val.none_)
    ∧ (∀ (env : CrawlEnv) (c : Crawler) (fs : CrawlFS) (n : Nat) (t0 : ℚ),
        ( start_current_prefix env (slice_prep c) fs n t0).c.current_sleep_time = none
        ∧ ( start_current_prefix env (slice_prep c) fs n t0).c.next_wake_time = none) := by
  refine ⟨?_, ?_, ?_, ?_, ?_⟩
  · intro c k h1 h2
    rw [get_state, dlookup_dictSet_ne _ _ _ _ h2, dlookup_dictSet_ne _ _ _ _ h1]
  · intro c
    constructor
    · rw [get_state, dget_dictSet_ne _ _ _ _ (by decide), dget_dictSet_self]
    · rw [get_state, dget_dictSet_self]
  · intro s h
    exact ⟨(reach_inv s h).1.2.1, (reach_inv s h).1.2.2⟩
  · intro c
    refine ⟨rfl, rfl, ?_, ?_⟩
    · rw [get_state, dget_dictSet_ne _ _ _ _ (by decide), dget_dictSet_self]
      rfl
    · rw [get_state, dget_dictSet_self]
      rfl
  · intro env c fs n t0
    have hp := start_current_prefix_pres env (slice_prep c) fs n t0
    exact ⟨hp.1, hp.2⟩

/-- Witness for C9: concrete reads on the witness crawler and the initial
reachable state. -/
theorem get_state_spec_witness :
    dlookup (get_state cW) "version" = dlookup cW.state "version"
    ∧ dget (get_state cW) "current-sleep-time" = optVal cW.current_sleep_time
    ∧ dlookup (load_state (ShareCrawler_init "sd" "sf" none) emptyFS).state
        "current-sleep-time" = none :=
  ⟨get_state_spec.1 cW "version" (by decide) (by decide),
   (get_state_spec.2.1 cW).1,
   (get_state_spec.2.2.1 (load_state (ShareCrawler_init "sd" "sf" none) emptyFS, emptyFS)
     (Reach.init "sd" "sf" none)).1⟩

/-! ### Claim C3 -/

theorem save_state_dget (c : Crawler) (fs : CrawlFS) (k : String)
    (h : k ≠ "last-complete-prefix") :
    dget (save_state c fs).1.state k = dget c.state k := by
  simp only [save_state]
  rw [dget_dictSet_ne _ _ _ _ h]

theorem listBuckets_sorted (env : CrawlEnv) (pd : String) :
    List.Sorted (· ≤ ·) (listBuckets env pd) := by
  rw [listBuckets]
  cases env.listdir pd with
  | none => exact List.sorted_nil
  | some l => exact List.sorted_insertionSort _ _

theorem bucket_loop_sound (env : CrawlEnv) (cycle : Nat) (pfx pd : String) (t0 : ℚ) :
    ∀ (bs : List String) (c : Crawler) (fs : CrawlFS) (n : Nat) (s : String),
      dget c.state "last-complete-bucket" = Val.str s →
      ∀ a q x, Ev.processBucket a q x ∈ (bucket_loop env cycle pfx pd t0 c fs n bs).tr →
        a = cycle ∧ q = pfx ∧ s < x := by
  intro bs
  induction bs with
  | nil =>
    intro c fs n s _ a q x hx
    simp only [bucket_loop, List.not_mem_nil] at hx
  | cons b rest ih =>
    intro c fs n s hlcb a q x hx
    simp only [bucket_loop] at hx
    cases hb : bucketLE b (dget c.state "last-complete-bucket") with
    | true =>
      rw [if_pos hb] at hx
      exact ih c fs n s hlcb a q x hx
    | false =>
      rw [if_neg (by simp [hb])] at hx
      by_cases hcl : env.clock n > t0 + c.cpu_slice
      · rw [if_pos hcl] at hx
        simp at hx
      · rw [if_neg hcl] at hx
        have hsb : s < b := by
          rw [hlcb] at hb
          simp only [bucketLE, decide_eq_false_iff_not] at hb
          exact lt_of_not_le hb
        rcases List.mem_cons.1 hx with he | hx2
        · obtain ⟨rfl, rfl, rfl⟩ : a = cycle ∧ q = pfx ∧ x = b := by
            injection he with e1 e2 e3
            exact ⟨e1, e2, e3⟩
          exact ⟨rfl, rfl, hsb⟩
        · rcases List.mem_cons.1 hx2 with he | hx3
          · exact absurd he (by simp)
          · have hnew : dget (save_state { c with
                state := dictSet c.state "last-complete-bucket" (Val.str b) } fs).1.state
                "last-complete-bucket" = Val.str b := by
              rw [save_state_dget _ _ _ (by decide)]
              exact dget_dictSet_self _ _ _
            have hres := ih _ _ _ b hnew a q x hx3
            exact ⟨hres.1, hres.2.1, lt_trans hsb hres.2.2⟩

theorem bucket_loop_complete (env : CrawlEnv) (cycle : Nat) (pfx pd : String) (t0 : ℚ) :
    ∀ (bs : List String) (c : Crawler) (fs : CrawlFS) (n : Nat) (s : String),
      dget c.state "last-complete-bucket" = Val.str s →
      List.Sorted (· ≤ ·) bs →
      (∀ m, ¬ env.clock m > t0 + c.cpu_slice) →
      ∀ x ∈ bs, s < x →
        Ev.processBucket cycle pfx x ∈ (bucket_loop env cycle pfx pd t0 c fs n bs).tr := by
  intro bs
  induction bs with
  | nil =>
    intro c fs n s _ _ _ x hx _
    exact absurd hx (List.not_mem_nil x)
  | cons b rest ih =>
    intro c fs n s hlcb hsort hclk x hx hsx
    simp only [bucket_loop]
    cases hb : bucketLE b (dget c.state "last-complete-bucket") with
    | true =>
      rw [if_pos rfl]
      have hbs : b ≤ s := by
        rw [hlcb] at hb
        simpa [bucketLE] using hb
      rcases List.mem_cons.1 hx with rfl | hx2
      · exact absurd (lt_of_lt_of_le hsx hbs) (lt_irrefl s)
      · exact ih c fs n s hlcb hsort.of_cons hclk x hx2 hsx
    | false =>
      rw [if_neg (by simp)]
      rw [if_neg (hclk n)]
      have hnew : dget (save_state { c with
          state := dictSet c.state "last-complete-bucket" (Val.str b) } fs).1.state
          "last-complete-bucket" = Val.str b := by
        rw [save_state_dget _ _ _ (by decide)]
        exact dget_dictSet_self _ _ _
      rcases List.mem_cons.1 hx with rfl | hx2
      · exact List.mem_cons_self _ _
      · by_cases hbx : b < x
        · have hmem := ih (save_state { c with
              state := dictSet c.state "last-complete-bucket" (Val.str b) } fs).1
            (save_state { c with
              state := dictSet c.state "last-complete-bucket" (Val.str b) } fs).2.1
            (n + 1) b hnew hsort.of_cons hclk x hx2 hbx
          exact List.mem_cons_of_mem _ (List.mem_cons_of_mem _ hmem)
        · have hxb : b ≤ x := (List.sorted_cons.1 hsort).1 x hx2
          have : x = b := le_antisymm (not_lt.1 hbx) hxb
          subst this
          exact List.mem_cons_self _ _

theorem bucket_loop_events (env : CrawlEnv) (cycle : Nat) (pfx pd : String) (t0 : ℚ) :
    ∀ (bs : List String) (c : Crawler) (fs : CrawlFS) (n : Nat) (e : Ev),
      e ∈ (bucket_loop env cycle pfx pd t0 c fs n bs).tr →
      (∃ x, e = Ev.processBucket cycle pfx x) ∨ (∃ st, e = Ev.save st) := by
  intro bs
  induction bs with
  | nil =>
    intro c fs n e he
    exact absurd he (List.not_mem_nil e)
  | cons b rest ih =>
    intro c fs n e he
    simp only [bucket_loop] at he
    cases hb : bucketLE b (dget c.state "last-complete-bucket") with
    | true =>
      rw [if_pos hb] at he
      exact ih c fs n e he
    | false =>
      rw [if_neg (by simp [hb])] at he
      by_cases hcl : env.clock n > t0 + c.cpu_slice
      · rw [if_pos hcl] at he
        exact absurd he (List.not_mem_nil e)
      · rw [if_neg hcl] at he
        rcases List.mem_cons.1 he with rfl | he2
        · exact Or.inl ⟨b, rfl⟩
        · rcases List.mem_cons.1 he2 with rfl | he3
          · exact Or.inr ⟨_, rfl⟩
          · exact ih _ _ _ e he3

theorem prefix_loop_events (env : CrawlEnv) (cycle : Nat) (t0 : ℚ) :
    ∀ (L : List Nat) (c : Crawler) (fs : CrawlFS) (n : Nat),
      (∀ i, Ev.prefixDone i ∈ (prefix_loop env cycle t0 c fs n L).tr → i ∈ L)
      ∧ (∀ a q x, Ev.processBucket a q x ∈ (prefix_loop env cycle t0 c fs n L).tr →
          ∃ i ∈ L, q = c.prefixes.getD i "" ∧ a = cycle) := by
  intro L
  induction L with
  | nil =>
    intro c fs n
    constructor
    · intro i hi
      exact absurd hi (List.not_mem_nil _)
    · intro a q x hx
      exact absurd hx (List.not_mem_nil _)
  | cons i rest ih =>
    intro c fs n
    simp only [prefix_loop]
    by_cases hcl : env.clock n > t0 + c.cpu_slice
    · rw [if_pos hcl]
      constructor
      · intro j hj
        exact absurd hj (List.not_mem_nil _)
      · intro a q x hx
        exact absurd hx (List.not_mem_nil _)
    · rw [if_neg hcl]
      set cb := (if c.bucket_cache.1 = some i then (c, c.bucket_cache.2)
        else ({ c with bucket_cache := (some i,
          listBuckets env (c.sharedir ++ "/" ++ c.prefixes.getD i "")) },
          listBuckets env (c.sharedir ++ "/" ++ c.prefixes.getD i ""))) with hcb0
      set rb := bucket_loop env cycle (c.prefixes.getD i "")
        (c.sharedir ++ "/" ++ c.prefixes.getD i "") t0 cb.1 fs (n + 1) cb.2 with hrb
      have hbe := bucket_loop_events env cycle (c.prefixes.getD i "")
        (c.sharedir ++ "/" ++ c.prefixes.getD i "") t0 cb.2 cb.1 fs (n + 1)
      rw [← hrb] at hbe
      have hpres : rb.c.prefixes = c.prefixes := by
        have hp := (bucket_loop_pres env cycle (c.prefixes.getD i "")
          (c.sharedir ++ "/" ++ c.prefixes.getD i "") t0 cb.2 cb.1 fs (n + 1)).2.1
        rw [← hrb] at hp
        rw [hp, hcb0]
        split <;> rfl
      split
      · constructor
        · intro j hj
          rcases hbe _ hj with ⟨y, hy⟩ | ⟨st, hy⟩ <;> exact absurd hy (by simp)
        · intro a q x hx
          rcases hbe _ hx with ⟨y, hy⟩ | ⟨st, hy⟩
          · injection hy with e1 e2 e3
            exact ⟨i, List.mem_cons_self _ _, e2.symm ▸ rfl, e1⟩
          · exact absurd hy (by simp)
      · have ihr := ih (save_state { rb.c with
            last_complete_prefix_index := (i : Int) } rb.fs).1
          (save_state { rb.c with
            last_complete_prefix_index := (i : Int) } rb.fs).2.1 rb.n
        have hpres2 : (save_state { rb.c with
            last_complete_prefix_index := (i : Int) } rb.fs).1.prefixes = c.prefixes := hpres
        constructor
        · intro j hj
          rcases List.mem_append.1 hj with hj1 | hj2
          · rcases hbe _ hj1 with ⟨y, hy⟩ | ⟨st, hy⟩ <;> exact absurd hy (by simp)
          · rcases List.mem_cons.1 hj2 with he | hj3
            · injection he with e1
              exact e1 ▸ List.mem_cons_self _ _
            · rcases List.mem_cons.1 hj3 with he | hj4
              · exact absurd he (by simp)
              · exact List.mem_cons_of_mem _ (ihr.1 j hj4)
        · intro a q x hx
          rcases List.mem_append.1 hx with hx1 | hx2
          · rcases hbe _ hx1 with ⟨y, hy⟩ | ⟨st, hy⟩
            · injection hy with e1 e2 e3
              exact ⟨i, List.mem_cons_self _ _, e2.symm ▸ rfl, e1⟩
            · exact absurd hy (by simp)
          · rcases List.mem_cons.1 hx2 with he | hx3
            · exact absurd he (by simp)
            · rcases List.mem_cons.1 hx3 with he | hx4
              · exact absurd he (by simp)
              · obtain ⟨j, hj, hq, ha⟩ := ihr.2 a q x hx4
                rw [hpres2] at hq
                exact ⟨j, List.mem_cons_of_mem _ hj, hq, ha⟩

theorem prefix_loop_resume (env : CrawlEnv) (k : Nat) (t0 : ℚ) (c : Crawler)
    (fs : CrawlFS) (n : Nat) (j : Nat) (R : List Nat) (b : String)
    (hlcb : dget c.state "last-complete-bucket" = Val.str b)
    (hcache : c.bucket_cache.1 = none)
    (hclk : ∀ m, ¬ env.clock m > t0 + c.cpu_slice)
    (hR : ∀ i ∈ R, j + 1 < i)
    (hRlen : ∀ i ∈ R, i < c.prefixes.length)
    (hnd : c.prefixes.Nodup)
    (hjl : j + 1 < c.prefixes.length) :
    (∀ x, x ∈ listBuckets env (c.sharedir ++ "/" ++ c.prefixes.getD (j + 1) "") → b < x →
      Ev.processBucket k (c.prefixes.getD (j + 1) "") x
        ∈ (prefix_loop env k t0 c fs n ((j + 1) :: R)).tr)
    ∧ (∀ a x, Ev.processBucket a (c.prefixes.getD (j + 1) "") x
        ∈ (prefix_loop env k t0 c fs n ((j + 1) :: R)).tr → b < x) := by
  simp only [prefix_loop]
  rw [if_neg (hclk n)]
  have hcbne : ¬ c.bucket_cache.1 = some (j + 1) := by
    rw [hcache]
    simp
  rw [if_neg hcbne]
  set bsv := listBuckets env (c.sharedir ++ "/" ++ c.prefixes.getD (j + 1) "") with hbsv
  set cx : Crawler := { c with bucket_cache := (some (j + 1), bsv) } with hcx
  set rb := bucket_loop env k (c.prefixes.getD (j + 1) "")
    (c.sharedir ++ "/" ++ c.prefixes.getD (j + 1) "") t0 cx fs (n + 1) bsv with hrb
  have hnb : rb.exceeded = false := by
    cases hx : rb.exceeded with
    | false => rfl
    | true =>
      rw [hrb] at hx
      exact absurd ((bucket_loop_clock env k (c.prefixes.getD (j + 1) "")
        (c.sharedir ++ "/" ++ c.prefixes.getD (j + 1) "") t0 bsv cx fs (n + 1)).2.1 hx).1
        (hclk _)
  simp only [hnb, Bool.false_eq_true, if_false]
  have hlcbx : dget cx.state "last-complete-bucket" = Val.str b := hlcb
  constructor
  · intro x hx hbx
    have hmem := bucket_loop_complete env k (c.prefixes.getD (j + 1) "")
      (c.sharedir ++ "/" ++ c.prefixes.getD (j + 1) "") t0 bsv cx fs (n + 1) b hlcbx
      (hbsv ▸ listBuckets_sorted env _) hclk x hx hbx
    rw [← hrb] at hmem
    exact List.mem_append_left _ hmem
  · intro a x hxin
    rcases List.mem_append.1 hxin with hx1 | hx2
    · rw [hrb] at hx1
      exact ((bucket_loop_sound env k (c.prefixes.getD (j + 1) "")
        (c.sharedir ++ "/" ++ c.prefixes.getD (j + 1) "") t0 bsv cx fs (n + 1) b hlcbx)
        a _ x hx1).2.2
    · rcases List.mem_cons.1 hx2 with he | hx3
      · exact absurd he (by simp)
      · rcases List.mem_cons.1 hx3 with he | hx4
        · exact absurd he (by simp)
        · exfalso
          obtain ⟨i, hiR, hq, _⟩ := (prefix_loop_events env k t0 R
            (save_state { rb.c with
              last_complete_prefix_index := ((j + 1 : Nat) : Int) } rb.fs).1
            (save_state { rb.c with
              last_complete_prefix_index := ((j + 1 : Nat) : Int) } rb.fs).2.1 rb.n).2
            a (c.prefixes.getD (j + 1) "") x hx4
          have hpr : (save_state { rb.c with
              last_complete_prefix_index := ((j + 1 : Nat) : Int) } rb.fs).1.prefixes
              = c.prefixes := by
            have hp1 := (bucket_loop_pres env k (c.prefixes.getD (j + 1) "")
              (c.sharedir ++ "/" ++ c.prefixes.getD (j + 1) "") t0 bsv cx fs (n + 1)).2.1
            rw [← hrb] at hp1
            exact hp1
          rw [hpr] at hq
          have hi1 : j + 1 < i := hR i hiR
          have hi2 : i < c.prefixes.length := hRlen i hiR
          rw [List.getD_eq_getElem c.prefixes "" hjl, List.getD_eq_getElem c.prefixes "" hi2]
            at hq
          rw [hnd.getElem_inj_iff] at hq
          omega

set_option maxHeartbeats 1600000 in
/-- **C3.**  After a restart, `load_state` followed by `start_current_prefix`
resumes where the persisted state left off (lines 81-92, 180-186, 195-200):
if the statefile holds `last-complete-prefix = p` (a prefix whose successor
index is still in range), `last-complete-bucket = b` and `current-cycle = k`,
then the next slice starts at the prefix after `p` — every `prefixDone`
event is for an index greater than `p`'s — and inside the resumed prefix it
processes, in cycle `k`, exactly the buckets lexicographically greater than
`b`: every such bucket of the prefix directory is processed, and no bucket
`≤ b` is. -/
theorem resume_after_crash_spec (env : CrawlEnv) (c0 : Crawler) (fs : CrawlFS)
    (n : Nat) (t0 : ℚ) (st : StateDict) (p b : String) (k : Nat)
    (hfs : fs c0.statefile = some st)
    (hlcp : dget st "last-complete-prefix" = Val.str p)
    (hlcb : dget st "last-complete-bucket" = Val.str b)
    (hcc : dget st "current-cycle" = Val.nat k)
    (hnd : c0.prefixes.Nodup)
    (hj1 : c0.prefixes.indexOf p + 1 < c0.prefixes.length)
    (hcache : c0.bucket_cache.1 = none)
    (hclk : ∀ m, ¬ env.clock m > t0 + c0.cpu_slice) :
    (∀ i, Ev.prefixDone i ∈ ( start_current_prefix env (load_state c0 fs) fs n t0).tr →
      c0.prefixes.indexOf p < i)
    ∧ (∀ x, x ∈ listBuckets env
        (c0.sharedir ++ "/" ++ c0.prefixes.getD (c0.prefixes.indexOf p + 1) "") →
        b < x →
        Ev.processBucket k (c0.prefixes.getD (c0.prefixes.indexOf p + 1) "") x
          ∈ ( start_current_prefix env (load_state c0 fs) fs n t0).tr)
    ∧ (∀ a x, Ev.processBucket a (c0.prefixes.getD (c0.prefixes.indexOf p + 1) "") x
          ∈ ( start_current_prefix env (load_state c0 fs) fs n t0).tr →
        b < x) := by
  set cL := load_state c0 fs with hgen
  have hst : cL.state = st := by
    rw [hgen, load_state]
    simp [hfs]
  have hidx : cL.last_complete_prefix_index = (c0.prefixes.indexOf p : Int) := by
    rw [hgen, load_state]
    simp [hfs, hlcp]
  have hpfx : cL.prefixes = c0.prefixes := by
    rw [hgen]
    rfl
  have hcpu : cL.cpu_slice = c0.cpu_slice := by
    rw [hgen]
    rfl
  have hbc : cL.bucket_cache = c0.bucket_cache := by
    rw [hgen]
    rfl
  have hclk2 : ∀ m, ¬ env.clock m > t0 + cL.cpu_slice := by
    rw [hcpu]
    exact hclk
  have hcache2 : cL.bucket_cache.1 = none := by
    rw [hbc]
    exact hcache
  have hnd2 : cL.prefixes.Nodup := by
    rw [hpfx]
    exact hnd
  have hj2 : c0.prefixes.indexOf p + 1 < cL.prefixes.length := by
    rw [hpfx]
    exact hj1
  have hsetup : cycle_setup cL.state = some st := by
    rw [hst, cycle_setup, hcc]
  have hcyc : currentCycleNat st = k := by
    rw [currentCycleNat, hcc]
  have hstart : (cL.last_complete_prefix_index + 1).toNat
      = c0.prefixes.indexOf p + 1 := by
    rw [hidx]
    omega
  have hll : cL.prefixes.length = c0.prefixes.length := by rw [hpfx]
  have hcnt : cL.prefixes.length - (c0.prefixes.indexOf p + 1)
      = (c0.prefixes.length - (c0.prefixes.indexOf p + 1) - 1) + 1 := by omega
  rw [ start_current_prefix, hsetup]
  simp only
  rw [hcyc, hstart, hcnt, List.range'_succ]
  have key := prefix_loop_resume env k t0 { cL with state := st } fs n
    (c0.prefixes.indexOf p)
    (List.range' (c0.prefixes.indexOf p + 1 + 1)
      (c0.prefixes.length - (c0.prefixes.indexOf p + 1) - 1)) b
    hlcb hcache2 hclk2
    (fun i hi => by have := List.mem_range'_1.1 hi; omega)
    (fun i hi => by
      have := List.mem_range'_1.1 hi
      show i < cL.prefixes.length
      omega)
    hnd2 hj2
  split
  · rename_i heq
    exact absurd ((prefix_loop_clock env k t0 _ _ fs n).2.1 heq).1 (hclk2 _)
  · simp only
    refine ⟨?_, ?_, ?_⟩
    · intro i hi
      rcases List.mem_append.1 hi with h1 | h2
      · have hmem := (prefix_loop_events env k t0 _ _ fs n).1 i h1
        rcases List.mem_cons.1 hmem with he | hR
        · omega
        · have := List.mem_range'_1.1 hR
          omega
      · simp at h2
    · intro x hx hbx
      exact List.mem_append_left _ (key.1 x hx hbx)
    · intro a x hxin
      rcases List.mem_append.1 hxin with h1 | h2
      · exact key.2 a x h1
      · simp at h2

/-- Witness for C3: on the two-prefix crawler `cR` whose statefile records
`last-complete-prefix = "aa"`, `last-complete-bucket = "b1"` and
`current-cycle = 5`, the resumed slice processes bucket `"b2"` of prefix
`"ab"` in cycle 5. -/
theorem resume_after_crash_spec_witness :
    Ev.processBucket 5 "ab" "b2"
      ∈ ( start_current_prefix envR (load_state cR fsR) fsR 0 0).tr := by
  have h := (resume_after_crash_spec envR cR fsR 0 0 stR "aa" "b1" 5
    (by decide) (by decide) (by decide) (by decide) (by decide) (by decide)
    (by decide)
    (by
      intro m
      norm_num [envR, cR, cW])).2.1 "b2"
    (by
      have harg : cR.sharedir ++ "/" ++ cR.prefixes.getD (cR.prefixes.indexOf "aa" + 1) ""
          = "sd/ab" := by decide
      have henv : envR.listdir "sd/ab" = some ["b0", "b2"] := by decide
      rw [harg, listBuckets, henv]
      exact (List.Perm.mem_iff (List.perm_insertionSort _ _)).2 (by decide))
    (by
      rw [String.lt_iff_toList_lt]
      decide)
  exact h
